import Mathlib

set_option autoImplicit false

/-!
# StringSet: a hash set of strings with separate chaining

A shallow embedding of `src/string_set.h` (class `StringSet<Hash>`) and of the
demonstration driver `src/main.cpp`.

Modelling decisions, all taken from the source:

* `elements_` is a `std::list<std::pair<std::string, size_t>>`.  A list node is
  modelled by `Node`: the pair (`first`, `second`) together with the identity
  of the node (`addr`), which is what a `list_iterator` holds.  The past-the-end
  iterator is `none`.
* `table_` is a `std::vector<std::list<list_iterator>>`: a list of chains, each
  chain a list of node identities.
* `size_t` values (`nElements_`, `table_size_`, digests) are natural numbers.
  The counters can only wrap after more than `2^63` successful insertions,
  which no address space can hold, so no wrap-around is modelled; the
  decrement in `remove` runs only after a chain entry was found, when the
  count is positive in every reachable state.
* The hasher is a pure function from strings to digests; every theorem holds
  for an arbitrary one unless it says otherwise.
* The range constructor (and the initializer-list constructor that delegates to
  it) calls a function `insert` that `StringSet` does not declare, so it has
  no behaviour to embed; sequences of `add` calls are modelled by `run`.
* Undefined behaviour (a modulo by zero, an index outside `table_`, the
  dereference of an iterator that points to no node) is the result `none`.
-/

/-- One node of the element log: the pair stored in the node and the identity
of the node itself. -/
structure Node where
  /-- Identity of the list node, the value a `list_iterator` to it holds. -/
  addr : Nat
  /-- The stored string (`pair::first`). -/
  first : String
  /-- The cached digest (`pair::second`). -/
  second : Nat
deriving DecidableEq, Repr

/-- The data members of `StringSet<Hash>`. -/
structure StringSet where
  table_ : List (List Nat)
  elements_ : List Node
  nElements_ : Nat
  table_size_ : Nat
  hasher_ : String → Nat

namespace StringSet

/-- The constant `EXPANSION_COEFFICIENT`. -/
def EXPANSION_COEFFICIENT : Nat := 2

/-- An iterator of the set: the identity of a log node, or `none` for `end()`. -/
abbrev iterator := Option Nat

/-- Identity given to the node created by `elements_.emplace_back`: one that no
live node has. -/
def fresh_addr : List Node → Nat
  | [] => 0
  | n :: rest => max (n.addr + 1) (fresh_addr rest)

/-- Dereference of a `list_iterator`: the node it points to, `none` when it
points to no node of the log. -/
def deref (elements : List Node) (it : Nat) : Option Node :=
  elements.find? (fun n => n.addr == it)

/-- The default constructor: no elements, one empty chain. -/
def new (hasher : String → Nat) : StringSet :=
  { table_ := List.replicate 1 []
    elements_ := []
    nElements_ := 0
    table_size_ := 1
    hasher_ := hasher }

/-- Member `size()`. -/
def size (st : StringSet) : Nat := st.nElements_

/-- Member `empty()`. -/
def empty (st : StringSet) : Bool := st.nElements_ == 0

/-- Member `hash_function()`. -/
def hash_function (st : StringSet) : String → Nat := st.hasher_

/-- Member `begin()`. -/
def begin_ (st : StringSet) : iterator := (st.elements_.head?).map Node.addr

/-- Member `end()`. -/
def end_ (_st : StringSet) : iterator := none

/-- The strings a full iteration from `begin()` to `end()` yields: the `first`
of every log node, in log order. -/
def toList (st : StringSet) : List String := st.elements_.map Node.first

/-- The loop of `find` over the chain of the bucket: the first chain entry whose
node has cached digest `h`. -/
def find_loop (elements : List Node) (h : Nat) : List Nat → Option iterator
  | [] => some none
  | iter :: rest =>
    match deref elements iter with
    | none => none
    | some node => if node.second = h then some (some iter) else find_loop elements h rest

/-- Member `find`, the mutable overload (the read-only overload is `find_const`). -/
def find (st : StringSet) (data : String) : Option iterator :=
  let h := st.hasher_ data
  if st.table_size_ = 0 then none
  else
    let bucket := h % st.table_size_
    match st.table_[bucket]? with
    | none => none
    | some chain => find_loop st.elements_ h chain

/-- Member `find`, the read-only overload. -/
def find_const (st : StringSet) (data : String) : Option iterator :=
  let h := st.hasher_ data
  if st.table_size_ = 0 then none
  else
    let bucket := h % st.table_size_
    match st.table_[bucket]? with
    | none => none
    | some chain => find_loop st.elements_ h chain

/-- The `operator*` of an iterator: the string of the node it points to, `none` when it
is `end()` or points to no node of the log. -/
def star (st : StringSet) (it : iterator) : Option String :=
  match it with
  | none => none
  | some a => (deref st.elements_ a).map Node.first

/-- Member `contains`: `find(data) != end()`, on the read-only overload. -/
def contains (st : StringSet) (data : String) : Option Bool :=
  match find_const st data with
  | none => none
  | some it => some (it != end_ st)

/-- Member `need_to_expand`. -/
def need_to_expand (st : StringSet) : Bool := decide (st.nElements_ > st.table_size_)

/-- The loop of `expand`: every log node, in log order, is appended to the chain
at index `hasher_(i->first) % table_size_`. -/
def expand_loop (hasher : String → Nat) (table_size : Nat) :
    List Node → List (List Nat) → Option (List (List Nat))
  | [], table => some table
  | i :: rest, table =>
    if table_size = 0 then none
    else
      let h := hasher i.first % table_size
      match table[h]? with
      | none => none
      | some chain => expand_loop hasher table_size rest (table.set h (chain ++ [i.addr]))

/-- Member `expand`: doubles `table_size_` and rebuilds `table_`. -/
def expand (st : StringSet) : Option StringSet :=
  let table_size := st.table_size_ * EXPANSION_COEFFICIENT
  match expand_loop st.hasher_ table_size st.elements_ (List.replicate table_size []) with
  | none => none
  | some table => some { st with table_size_ := table_size, table_ := table }

/-- Member `expand_if_necessary`. -/
def expand_if_necessary (st : StringSet) : Option StringSet :=
  if !need_to_expand st then some st else expand st

/-- Member `add`. -/
def add (st : StringSet) (data : String) : Option (Bool × StringSet) :=
  match find st data with
  | none => none
  | some it =>
    if it != end_ st then some (false, st)
    else
      let h := st.hasher_ data
      if st.table_size_ = 0 then none
      else
        let bucket := h % st.table_size_
        let node : Node := { addr := fresh_addr st.elements_, first := data, second := h }
        match st.table_[bucket]? with
        | none => none
        | some chain =>
          match expand_if_necessary
              { st with
                nElements_ := st.nElements_ + 1
                elements_ := st.elements_ ++ [node]
                table_ := st.table_.set bucket (chain ++ [node.addr]) } with
          | none => none
          | some st1 => some (true, st1)

/-- The loop of `remove` over the chain of the bucket; `before` holds the chain
entries already passed, so that erasing the entry at the loop position leaves
`before ++ rest`. -/
def remove_loop (st : StringSet) (h bucket : Nat) :
    List Nat → List Nat → Option (Bool × StringSet)
  | _, [] => some (false, st)
  | before, i :: rest =>
    match deref st.elements_ i with
    | none => none
    | some node =>
      if node.second = h then
        some (true,
          { st with
            elements_ := st.elements_.eraseP (fun n => n.addr == i)
            table_ := st.table_.set bucket (before ++ rest)
            nElements_ := st.nElements_ - 1 })
      else remove_loop st h bucket (before ++ [i]) rest

/-- Member `remove`. -/
def remove (st : StringSet) (data : String) : Option (Bool × StringSet) :=
  let h := st.hasher_ data
  if st.table_size_ = 0 then none
  else
    let bucket := h % st.table_size_
    match st.table_[bucket]? with
    | none => none
    | some chain => remove_loop st h bucket [] chain

/-- Member `clear`. -/
def clear (st : StringSet) : StringSet :=
  { st with
    nElements_ := 0
    table_size_ := 1
    elements_ := []
    table_ := List.replicate 1 [] }

/-- The states reachable from a default-constructed set by `add`, `remove` and
`clear` calls. -/
inductive Reachable : StringSet → Prop
  | init (hasher : String → Nat) : Reachable (new hasher)
  | add {st st1 : StringSet} {b : Bool} (data : String) :
      Reachable st → StringSet.add st data = some (b, st1) → Reachable st1
  | remove {st st1 : StringSet} {b : Bool} (data : String) :
      Reachable st → StringSet.remove st data = some (b, st1) → Reachable st1
  | clear {st : StringSet} : Reachable st → Reachable (StringSet.clear st)

/-! ## The representation invariant -/

/-- The chain a bucket holds when the table mirrors the log: the identities of
the log nodes whose cached digest falls in bucket `b`, in log order. -/
def chainOf (elements : List Node) (table_size b : Nat) : List Nat :=
  (elements.filter (fun n => n.second % table_size == b)).map Node.addr

/-- The bucket table that mirrors a log for a given table size. -/
def buildTable (elements : List Node) (table_size : Nat) : List (List Nat) :=
  (List.range table_size).map (chainOf elements table_size)

/-- The representation invariant of the set. -/
structure WF (st : StringSet) : Prop where
  table_eq : st.table_ = buildTable st.elements_ st.table_size_
  size_pow : ∃ k, st.table_size_ = 2 ^ k
  count_eq : st.nElements_ = st.elements_.length
  addr_nodup : (st.elements_.map Node.addr).Nodup
  digest_nodup : (st.elements_.map Node.second).Nodup
  digest_eq : ∀ n ∈ st.elements_, n.second = st.hasher_ n.first
  load : st.nElements_ ≤ st.table_size_

/-! ## Definitions used to state the properties -/

/-- The state whose table mirrors the log `e` for the table size `ts`. -/
def ofLog (e : List Node) (ts : Nat) (hasher : String → Nat) : StringSet :=
  { table_ := buildTable e ts
    elements_ := e
    nElements_ := e.length
    table_size_ := ts
    hasher_ := hasher }

/-- Table size after a successful insertion into a set with `n` elements. -/
def grow (n ts : Nat) : Nat := if n + 1 > ts then ts * 2 else ts

/-- The node `add` appends to the log. -/
def newNode (st : StringSet) (data : String) : Node :=
  { addr := fresh_addr st.elements_, first := data, second := st.hasher_ data }

/-- A sample hasher: the length of the string. -/
def lengthHash (s : String) : Nat := s.length

/-- The set obtained from `add("a")`, `add("bb")` on an empty set hashed by length:
two elements, table size 2 after one resize. -/
def sampleSet : StringSet :=
  ofLog [{ addr := 0, first := "a", second := 1 }, { addr := 1, first := "bb", second := 2 }]
    2 lengthHash

/-- A call of one of the two mutating members that return a flag. -/
inductive Call where
  | add (data : String)
  | remove (data : String)
deriving DecidableEq, Repr

/-- Whether the call is an `add`. -/
def Call.isAdd : Call → Bool
  | Call.add _ => true
  | Call.remove _ => false

/-- One call on a state: the flag it returns and the state it leaves. -/
def call (st : StringSet) : Call → Option (Bool × StringSet)
  | Call.add data => add st data
  | Call.remove data => remove st data

/-- A finite sequence of calls, made in order: the flags returned and the final state. -/
def run (st : StringSet) : List Call → Option (List Bool × StringSet)
  | [] => some ([], st)
  | c :: cs =>
    match call st c with
    | none => none
    | some (b, st1) =>
      match run st1 cs with
      | none => none
      | some (bs, st2) => some (b :: bs, st2)

/-- Number of `add` calls of the sequence that returned true. -/
def addsTrue (calls : List Call) (flags : List Bool) : Nat :=
  ((calls.zip flags).filter (fun p => p.1.isAdd && p.2)).length

/-- Number of `remove` calls of the sequence that returned true. -/
def removesTrue (calls : List Call) (flags : List Bool) : Nat :=
  ((calls.zip flags).filter (fun p => !p.1.isAdd && p.2)).length

/-- The strings of the `add` calls that returned true, in the order of the calls. -/
def inserted (l : List String) (flags : List Bool) : List String :=
  ((l.zip flags).filter (fun p => p.2)).map (fun p => p.1)

/-- A sample hasher telling "Some data" from "some data": the sum of the character
codes. -/
def sumHash (s : String) : Nat := (s.toList.map Char.toNat).foldl (fun a b => a + b) 0

/-- The strings of `l` not yet in `acc`, appended to `acc` in the order of their first
occurrence. -/
def firstOccurrencesFrom (acc l : List String) : List String :=
  l.foldl (fun acc s => if s ∈ acc then acc else acc ++ [s]) acc

/-- The distinct strings of a list in the order of their first occurrence. -/
def firstOccurrences (l : List String) : List String := firstOccurrencesFrom [] l

/-- The rebuild loop as section 4.3 of the specification words it: every log node, in log
order, is appended to the chain at index (its cached digest mod the table size); the
hasher is not applied. -/
def rebucket_loop (table_size : Nat) :
    List Node → List (List Nat) → Option (List (List Nat))
  | [], table => some table
  | i :: rest, table =>
    if table_size = 0 then none
    else
      let h := i.second % table_size
      match table[h]? with
      | none => none
      | some chain => rebucket_loop table_size rest (table.set h (chain ++ [i.addr]))

/-- The resize as section 4.3 of the specification words it: the table size is doubled and
a fresh table is filled by `rebucket_loop` from the cached digests. -/
def expand_cached (st : StringSet) : Option StringSet :=
  let table_size := st.table_size_ * EXPANSION_COEFFICIENT
  match rebucket_loop table_size st.elements_ (List.replicate table_size []) with
  | none => none
  | some table => some { st with table_size_ := table_size, table_ := table }

/-- A state outside the reachable ones, whose only node caches the digest 0 although the
length hasher gives its string "a" the digest 1 (the state a write through the mutable
iterator leaves after `add("")`). -/
def staleSet : StringSet :=
  { table_ := [[0]]
    elements_ := [{ addr := 0, first := "a", second := 0 }]
    nElements_ := 1
    table_size_ := 1
    hasher_ := lengthHash }

/-! ## Lemmas on the bucket table -/

theorem length_buildTable (e : List Node) (ts : Nat) : (buildTable e ts).length = ts := by
  simp [buildTable]

theorem getElem?_buildTable (e : List Node) {ts b : Nat} (hb : b < ts) :
    (buildTable e ts)[b]? = some (chainOf e ts b) := by
  simp [buildTable, List.getElem?_range hb]

theorem buildTable_nil (ts : Nat) : buildTable [] ts = List.replicate ts [] := by
  apply List.ext_getElem?
  intro i
  by_cases hi : i < ts
  · rw [getElem?_buildTable [] hi, List.getElem?_replicate_of_lt hi]
    simp [chainOf]
  · rw [List.getElem?_eq_none (by simp [length_buildTable]; omega),
      List.getElem?_eq_none (by simp; omega)]

theorem chainOf_append (e : List Node) (x : Node) (ts b : Nat) :
    chainOf (e ++ [x]) ts b
      = chainOf e ts b ++ (if x.second % ts = b then [x.addr] else []) := by
  unfold chainOf
  by_cases h : x.second % ts = b <;> simp [List.filter_append, List.filter_cons, h]

theorem buildTable_append (e : List Node) (x : Node) {ts : Nat} (hts : 0 < ts) :
    (buildTable e ts).set (x.second % ts) (chainOf e ts (x.second % ts) ++ [x.addr])
      = buildTable (e ++ [x]) ts := by
  have hb : x.second % ts < ts := Nat.mod_lt _ hts
  apply List.ext_getElem?
  intro i
  by_cases hi : i < ts
  · rw [getElem?_buildTable _ hi, chainOf_append]
    by_cases hib : x.second % ts = i
    · subst hib
      rw [List.getElem?_set_self (by simpa [length_buildTable] using hb)]
      simp
    · rw [List.getElem?_set_ne hib, getElem?_buildTable _ hi]
      simp [hib]
  · rw [List.getElem?_eq_none (by simp [length_buildTable]; omega),
      List.getElem?_eq_none (by simp [length_buildTable]; omega)]

/-! ## Lemmas on iterators -/

theorem lt_fresh_addr {e : List Node} {n : Node} (h : n ∈ e) : n.addr < fresh_addr e := by
  induction e with
  | nil => cases h
  | cons a t ih =>
    simp only [fresh_addr]
    rcases List.mem_cons.mp h with rfl | h1
    · omega
    · have := ih h1
      omega

theorem fresh_addr_not_mem (e : List Node) : fresh_addr e ∉ e.map Node.addr := by
  intro h
  obtain ⟨n, hn, hneq⟩ := List.mem_map.mp h
  have := lt_fresh_addr hn
  omega

theorem deref_of_mem {e : List Node} (hnd : (e.map Node.addr).Nodup) {n : Node} (h : n ∈ e) :
    deref e n.addr = some n := by
  induction e with
  | nil => cases h
  | cons a t ih =>
    simp only [List.map_cons, List.nodup_cons] at hnd
    rcases List.mem_cons.mp h with rfl | h1
    · simp [deref]
    · have hne : a.addr ≠ n.addr := by
        intro heq
        exact hnd.1 (heq ▸ List.mem_map_of_mem Node.addr h1)
      have := ih hnd.2 h1
      simpa [deref, List.find?_cons, hne] using this

theorem find_loop_map {e : List Node} (hnd : (e.map Node.addr).Nodup) (h : Nat) :
    ∀ l : List Node, (∀ n ∈ l, n ∈ e) →
      find_loop e h (l.map Node.addr)
        = some ((l.find? (fun n => n.second == h)).map Node.addr) := by
  intro l
  induction l with
  | nil => intro _; simp [find_loop]
  | cons a t ih =>
    intro hl
    have ha : a ∈ e := hl a (List.mem_cons_self _ _)
    have ht : ∀ n ∈ t, n ∈ e := fun n hn => hl n (List.mem_cons_of_mem _ hn)
    simp only [List.map_cons, find_loop, deref_of_mem hnd ha]
    by_cases hh : a.second = h
    · simp [hh]
    · simp [hh, ih ht]

theorem find?_bucket (e : List Node) (ts h : Nat) :
    (e.filter (fun n => n.second % ts == h % ts)).find? (fun n => n.second == h)
      = e.find? (fun n => n.second == h) := by
  rw [List.find?_filter]
  congr 1
  funext n
  by_cases hh : n.second = h <;> simp [hh]

/-- On a well-formed state `find` looks the digest up in the log. -/
theorem find_eq {st : StringSet} (wf : WF st) (data : String) :
    find st data
      = some ((st.elements_.find? (fun n => n.second == st.hasher_ data)).map Node.addr) := by
  obtain ⟨k, hk⟩ := wf.size_pow
  have hpos : 0 < st.table_size_ := by rw [hk]; positivity
  have hb : st.hasher_ data % st.table_size_ < st.table_size_ := Nat.mod_lt _ hpos
  unfold find
  simp only [Nat.ne_of_gt hpos, if_false]
  rw [wf.table_eq, getElem?_buildTable _ hb]
  simp only [chainOf]
  rw [find_loop_map wf.addr_nodup _ _ (fun n hn => (List.mem_filter.mp hn).1), find?_bucket]

/-! ## Canonical form of well-formed states -/

theorem WF.eq_ofLog {st : StringSet} (wf : WF st) :
    st = ofLog st.elements_ st.table_size_ st.hasher_ := by
  cases st
  simp only [ofLog]
  congr 1
  · exact wf.table_eq
  · exact wf.count_eq

theorem WF.size_pos {st : StringSet} (wf : WF st) : 0 < st.table_size_ := by
  obtain ⟨k, hk⟩ := wf.size_pow
  rw [hk]
  positivity

theorem wf_ofLog {e : List Node} {ts : Nat} {hasher : String → Nat}
    (hts : ∃ k, ts = 2 ^ k) (ha : (e.map Node.addr).Nodup)
    (hd : (e.map Node.second).Nodup) (hh : ∀ n ∈ e, n.second = hasher n.first)
    (hl : e.length ≤ ts) : WF (ofLog e ts hasher) :=
  { table_eq := rfl
    size_pow := hts
    count_eq := rfl
    addr_nodup := ha
    digest_nodup := hd
    digest_eq := hh
    load := hl }

theorem wf_new (hasher : String → Nat) : WF (new hasher) :=
  { table_eq := by simp [new, buildTable_nil]
    size_pow := ⟨0, rfl⟩
    count_eq := rfl
    addr_nodup := by simp [new]
    digest_nodup := by simp [new]
    digest_eq := by simp [new]
    load := by simp [new] }

theorem new_eq_ofLog (hasher : String → Nat) : new hasher = ofLog [] 1 hasher :=
  (wf_new hasher).eq_ofLog

/-! ## Resize -/

theorem expand_loop_eq (hasher : String → Nat) {ts : Nat} (hts : 0 < ts) :
    ∀ (rest done : List Node), (∀ n ∈ rest, n.second = hasher n.first) →
      expand_loop hasher ts rest (buildTable done ts) = some (buildTable (done ++ rest) ts) := by
  intro rest
  induction rest with
  | nil => intro done _; simp [expand_loop]
  | cons i t ih =>
    intro done hh
    have hi : hasher i.first = i.second := (hh i (List.mem_cons_self _ _)).symm
    have hb : i.second % ts < ts := Nat.mod_lt _ hts
    simp only [expand_loop, Nat.ne_of_gt hts, if_false, hi]
    rw [getElem?_buildTable _ hb]
    simp only []
    rw [buildTable_append done i hts, ih (done ++ [i]) (fun n hn => hh n (List.mem_cons_of_mem _ hn))]
    simp

theorem expand_ofLog {e : List Node} {ts : Nat} {hasher : String → Nat} (hts : 0 < ts)
    (hh : ∀ n ∈ e, n.second = hasher n.first) :
    expand (ofLog e ts hasher) = some (ofLog e (ts * 2) hasher) := by
  have h2 : 0 < ts * 2 := by omega
  have := expand_loop_eq hasher h2 e [] hh
  rw [buildTable_nil] at this
  simp only [expand, ofLog, EXPANSION_COEFFICIENT, this, List.nil_append]

theorem expand_if_necessary_ofLog {e : List Node} {ts : Nat} {hasher : String → Nat}
    (hts : 0 < ts) (hh : ∀ n ∈ e, n.second = hasher n.first) :
    expand_if_necessary (ofLog e ts hasher)
      = some (ofLog e (if e.length > ts then ts * 2 else ts) hasher) := by
  unfold expand_if_necessary need_to_expand
  by_cases h : e.length > ts
  · simp only [ofLog] at *
    simpa [h] using expand_ofLog hts hh
  · simp [ofLog, h]

/-! ## Insertion -/

theorem add_of_present {st : StringSet} (wf : WF st) {data : String} {n : Node}
    (hn : n ∈ st.elements_) (hd : n.second = st.hasher_ data) :
    add st data = some (false, st) := by
  unfold add
  rw [find_eq wf]
  cases hf : st.elements_.find? (fun n => n.second == st.hasher_ data) with
  | none =>
    rw [List.find?_eq_none] at hf
    exact absurd (by simpa using hd) (hf n hn)
  | some m => simp [end_]

theorem add_of_absent {st : StringSet} (wf : WF st) {data : String}
    (hd : ∀ n ∈ st.elements_, n.second ≠ st.hasher_ data) :
    add st data
      = some (true, ofLog (st.elements_ ++ [newNode st data])
          (grow st.elements_.length st.table_size_) st.hasher_) := by
  have hpos := wf.size_pos
  have hb : st.hasher_ data % st.table_size_ < st.table_size_ := Nat.mod_lt _ hpos
  have hf : st.elements_.find? (fun n => n.second == st.hasher_ data) = none := by
    rw [List.find?_eq_none]
    intro n hn
    simpa using hd n hn
  have hh : ∀ n ∈ st.elements_ ++ [newNode st data], n.second = st.hasher_ n.first := by
    intro n hn
    rcases List.mem_append.mp hn with h1 | h1
    · exact wf.digest_eq n h1
    · rw [List.mem_singleton.mp h1]; rfl
  unfold add
  rw [find_eq wf, hf]
  simp only [Option.map_none', end_, bne_self_eq_false, Bool.false_eq_true, if_false,
    Nat.ne_of_gt hpos]
  have htab : st.table_[st.hasher_ data % st.table_size_]?
      = some (chainOf st.elements_ st.table_size_ (st.hasher_ data % st.table_size_)) := by
    rw [wf.table_eq, getElem?_buildTable _ hb]
  rw [htab]
  simp only []
  have hst : ({ st with
        nElements_ := st.nElements_ + 1
        elements_ := st.elements_ ++ [newNode st data]
        table_ := st.table_.set (st.hasher_ data % st.table_size_)
          (chainOf st.elements_ st.table_size_ (st.hasher_ data % st.table_size_)
            ++ [(newNode st data).addr]) } : StringSet)
      = ofLog (st.elements_ ++ [newNode st data]) st.table_size_ st.hasher_ := by
    simp only [ofLog]
    congr 1
    · rw [wf.table_eq]
      exact buildTable_append st.elements_ (newNode st data) hpos
    · simp [wf.count_eq]
  have hst2 := hst
  simp only [newNode] at hst2
  rw [hst2]
  have hexp := expand_if_necessary_ofLog hpos hh
  simp only [newNode] at hexp ⊢
  rw [hexp]
  simp [grow]

theorem grow_pow {n ts : Nat} (h : ∃ k, ts = 2 ^ k) : ∃ k, grow n ts = 2 ^ k := by
  obtain ⟨k, hk⟩ := h
  unfold grow
  by_cases hn : n + 1 > ts
  · exact ⟨k + 1, by rw [if_pos hn, hk, pow_succ]⟩
  · exact ⟨k, by rw [if_neg hn, hk]⟩

theorem succ_le_grow {n ts : Nat} (h : n ≤ ts) (hts : 0 < ts) : n + 1 ≤ grow n ts := by
  unfold grow
  by_cases hn : n + 1 > ts
  · simp only [hn, if_true]; omega
  · simp only [hn, if_false]; omega

theorem wf_add_of_absent {st : StringSet} (wf : WF st) {data : String}
    (hd : ∀ n ∈ st.elements_, n.second ≠ st.hasher_ data) :
    WF (ofLog (st.elements_ ++ [newNode st data])
      (grow st.elements_.length st.table_size_) st.hasher_) := by
  apply wf_ofLog
  · exact grow_pow wf.size_pow
  · rw [List.map_append, List.nodup_append]
    refine ⟨wf.addr_nodup, by simp, ?_⟩
    intro a ha hb
    simp only [List.map_cons, List.map_nil, List.mem_singleton] at hb
    subst hb
    exact fresh_addr_not_mem st.elements_ ha
  · rw [List.map_append, List.nodup_append]
    refine ⟨wf.digest_nodup, by simp, ?_⟩
    intro a ha hb
    simp only [List.map_cons, List.map_nil, List.mem_singleton] at hb
    subst hb
    obtain ⟨n, hn, hneq⟩ := List.mem_map.mp ha
    exact hd n hn hneq
  · intro n hn
    rcases List.mem_append.mp hn with h1 | h1
    · exact wf.digest_eq n h1
    · rw [List.mem_singleton.mp h1]; rfl
  · have := succ_le_grow (wf.count_eq ▸ wf.load) wf.size_pos
    simpa using this

/-! ## Removal -/

theorem remove_loop_absent (st : StringSet) (hnd : (st.elements_.map Node.addr).Nodup)
    (h bucket : Nat) :
    ∀ (l : List Node) (before : List Nat), (∀ n ∈ l, n ∈ st.elements_) →
      (∀ n ∈ l, n.second ≠ h) →
      remove_loop st h bucket before (l.map Node.addr) = some (false, st) := by
  intro l
  induction l with
  | nil => intro before _ _; simp [remove_loop]
  | cons a t ih =>
    intro before hl hne
    have ha : a ∈ st.elements_ := hl a (List.mem_cons_self _ _)
    simp only [List.map_cons, remove_loop, deref_of_mem hnd ha,
      hne a (List.mem_cons_self _ _), if_false]
    exact ih _ (fun n hn => hl n (List.mem_cons_of_mem _ hn))
      (fun n hn => hne n (List.mem_cons_of_mem _ hn))

theorem remove_loop_present (st : StringSet) (hnd : (st.elements_.map Node.addr).Nodup)
    (h bucket : Nat) (x : Node) (l2 : List Node) (hx : x ∈ st.elements_) (hxh : x.second = h) :
    ∀ (l1 : List Node) (before : List Nat), (∀ n ∈ l1, n ∈ st.elements_) →
      (∀ n ∈ l1, n.second ≠ h) →
      remove_loop st h bucket before ((l1 ++ x :: l2).map Node.addr)
        = some (true,
            { st with
              elements_ := st.elements_.eraseP (fun n => n.addr == x.addr)
              table_ := st.table_.set bucket
                (before ++ l1.map Node.addr ++ l2.map Node.addr)
              nElements_ := st.nElements_ - 1 }) := by
  intro l1
  induction l1 with
  | nil =>
    intro before _ _
    simp [remove_loop, deref_of_mem hnd hx, hxh]
  | cons a t ih =>
    intro before hl hne
    have ha : a ∈ st.elements_ := hl a (List.mem_cons_self _ _)
    simp only [List.cons_append, List.map_cons, remove_loop, deref_of_mem hnd ha,
      hne a (List.mem_cons_self _ _), if_false]
    have := ih (before ++ [a.addr]) (fun n hn => hl n (List.mem_cons_of_mem _ hn))
      (fun n hn => hne n (List.mem_cons_of_mem _ hn))
    simpa [List.append_assoc] using this

theorem chainOf_split (a c : List Node) (x : Node) (ts b : Nat) :
    chainOf (a ++ x :: c) ts b
      = chainOf a ts b ++ (if x.second % ts = b then [x.addr] else []) ++ chainOf c ts b := by
  unfold chainOf
  by_cases h : x.second % ts = b <;> simp [List.filter_append, List.filter_cons, h]

theorem chainOf_append_append (a c : List Node) (ts b : Nat) :
    chainOf (a ++ c) ts b = chainOf a ts b ++ chainOf c ts b := by
  simp [chainOf, List.filter_append]

theorem buildTable_excise (a c : List Node) (x : Node) {ts : Nat} (hts : 0 < ts) :
    (buildTable (a ++ x :: c) ts).set (x.second % ts) (chainOf (a ++ c) ts (x.second % ts))
      = buildTable (a ++ c) ts := by
  have hb : x.second % ts < ts := Nat.mod_lt _ hts
  apply List.ext_getElem?
  intro i
  by_cases hi : i < ts
  · rw [getElem?_buildTable _ hi]
    by_cases hib : x.second % ts = i
    · subst hib
      rw [List.getElem?_set_self (by simpa [length_buildTable] using hb)]
    · rw [List.getElem?_set_ne hib, getElem?_buildTable _ hi, chainOf_split,
        chainOf_append_append]
      simp [hib]
  · rw [List.getElem?_eq_none (by simp [length_buildTable]; omega),
      List.getElem?_eq_none (by simp [length_buildTable]; omega)]

theorem remove_of_absent {st : StringSet} (wf : WF st) {data : String}
    (hd : ∀ n ∈ st.elements_, n.second ≠ st.hasher_ data) :
    remove st data = some (false, st) := by
  have hpos := wf.size_pos
  have hb : st.hasher_ data % st.table_size_ < st.table_size_ := Nat.mod_lt _ hpos
  unfold remove
  simp only [Nat.ne_of_gt hpos, if_false]
  rw [wf.table_eq, getElem?_buildTable _ hb]
  simp only [chainOf]
  exact remove_loop_absent st wf.addr_nodup _ _ _ _
    (fun n hn => (List.mem_filter.mp hn).1) (fun n hn => hd n (List.mem_filter.mp hn).1)

theorem remove_of_split {st : StringSet} (wf : WF st) {data : String} {a c : List Node}
    {x : Node} (he : st.elements_ = a ++ x :: c) (hx : x.second = st.hasher_ data) :
    remove st data = some (true, ofLog (a ++ c) st.table_size_ st.hasher_) := by
  have hpos := wf.size_pos
  have hb : st.hasher_ data % st.table_size_ < st.table_size_ := Nat.mod_lt _ hpos
  have hxe : x ∈ st.elements_ := by rw [he]; simp
  have hadd := wf.addr_nodup
  have hdig := wf.digest_nodup
  rw [he, List.map_append, List.map_cons, List.nodup_append, List.nodup_cons] at hadd hdig
  have hane : ∀ n ∈ a, n.second ≠ st.hasher_ data := by
    intro n hn heq
    exact hdig.2.2 (List.mem_map_of_mem Node.second hn) (by rw [heq, ← hx]; simp)
  have haddr : ∀ n ∈ a, ¬ ((fun n : Node => n.addr == x.addr) n = true) := by
    intro n hn heq
    have h1 : n.addr = x.addr := by simpa using heq
    exact hadd.2.2 (List.mem_map_of_mem Node.addr hn) (by rw [h1]; simp)
  unfold remove
  simp only [Nat.ne_of_gt hpos, if_false]
  rw [wf.table_eq, getElem?_buildTable _ hb]
  have hchain : chainOf st.elements_ st.table_size_ (st.hasher_ data % st.table_size_)
      = ((a.filter (fun n => n.second % st.table_size_ == st.hasher_ data % st.table_size_))
          ++ x :: (c.filter
            (fun n => n.second % st.table_size_ == st.hasher_ data % st.table_size_))).map
          Node.addr := by
    rw [he]
    simp [chainOf, List.filter_append, List.filter_cons, hx]
  simp only []
  rw [hchain, remove_loop_present st wf.addr_nodup _ _ x _ hxe hx _ _
    (fun n hn => by rw [he]; exact List.mem_append_left _ (List.mem_filter.mp hn).1)
    (fun n hn => hane n (List.mem_filter.mp hn).1)]
  have herase : st.elements_.eraseP (fun n => n.addr == x.addr) = a ++ c := by
    rw [he, List.eraseP_append_right _ haddr, List.eraseP_cons_of_pos (by simp)]
  have hlen : st.nElements_ - 1 = (a ++ c).length := by
    rw [wf.count_eq, he]
    simp
  have htab : (buildTable st.elements_ st.table_size_).set (st.hasher_ data % st.table_size_)
      ([] ++ (a.filter
          (fun n => n.second % st.table_size_ == st.hasher_ data % st.table_size_)).map Node.addr
        ++ (c.filter
          (fun n => n.second % st.table_size_ == st.hasher_ data % st.table_size_)).map Node.addr)
      = buildTable (a ++ c) st.table_size_ := by
    rw [he, ← hx, ← buildTable_excise a c x hpos]
    simp [chainOf, List.filter_append]
  simp only [ofLog, herase, hlen]
  rw [Option.some.injEq, Prod.mk.injEq]
  refine ⟨rfl, ?_⟩
  rw [wf.table_eq, htab]

theorem wf_remove_of_split {st : StringSet} (wf : WF st) {a c : List Node}
    {x : Node} (he : st.elements_ = a ++ x :: c) :
    WF (ofLog (a ++ c) st.table_size_ st.hasher_) := by
  have hsub : (a ++ c).Sublist st.elements_ := by
    rw [he]
    exact List.Sublist.append_left (List.sublist_cons_self x c) a
  apply wf_ofLog wf.size_pow
  · exact wf.addr_nodup.sublist (hsub.map _)
  · exact wf.digest_nodup.sublist (hsub.map _)
  · exact fun n hn => wf.digest_eq n (hsub.subset hn)
  · have := hsub.length_le
    have h2 := wf.load
    rw [wf.count_eq] at h2
    omega

/-! ## Membership test -/

theorem find_const_eq_find (st : StringSet) (data : String) :
    find_const st data = find st data := rfl

theorem contains_eq {st : StringSet} (wf : WF st) (data : String) :
    contains st data
      = some ((st.elements_.find? (fun n => n.second == st.hasher_ data)).isSome) := by
  unfold contains
  rw [find_const_eq_find, find_eq wf]
  cases st.elements_.find? (fun n => n.second == st.hasher_ data) <;> simp [end_]

theorem contains_true_iff {st : StringSet} (wf : WF st) (data : String) :
    contains st data = some true ↔ ∃ n ∈ st.elements_, n.second = st.hasher_ data := by
  rw [contains_eq wf, Option.some.injEq, List.find?_isSome]
  simp

theorem contains_false_iff {st : StringSet} (wf : WF st) (data : String) :
    contains st data = some false ↔ ∀ n ∈ st.elements_, n.second ≠ st.hasher_ data := by
  rw [contains_eq wf, Option.some.injEq, ← Bool.not_eq_true, List.find?_isSome]
  simp

theorem contains_ofLog_snoc {e : List Node} {ts : Nat} {hasher : String → Nat} {x : Node}
    {data : String} (wf : WF (ofLog (e ++ [x]) ts hasher)) (hx : x.second = hasher data) :
    contains (ofLog (e ++ [x]) ts hasher) data = some true :=
  (contains_true_iff wf data).mpr ⟨x, by simp [ofLog], hx⟩

/-! ## Every reachable state is well formed -/

theorem absent_or_present (st : StringSet) (data : String) :
    (∀ n ∈ st.elements_, n.second ≠ st.hasher_ data)
      ∨ ∃ a x c, st.elements_ = a ++ x :: c ∧ x.second = st.hasher_ data := by
  by_cases h : ∃ n ∈ st.elements_, n.second = st.hasher_ data
  · obtain ⟨n, hn, hd⟩ := h
    obtain ⟨a, c, hac⟩ := List.append_of_mem hn
    exact Or.inr ⟨a, n, c, hac, hd⟩
  · left
    intro n hn hd
    exact h ⟨n, hn, hd⟩

theorem wf_add {st st1 : StringSet} {b : Bool} {data : String} (wf : WF st)
    (h : add st data = some (b, st1)) : WF st1 := by
  rcases absent_or_present st data with ha | ⟨a, x, c, he, hx⟩
  · rw [add_of_absent wf ha] at h
    simp only [Option.some.injEq, Prod.mk.injEq] at h
    rw [← h.2]
    exact wf_add_of_absent wf ha
  · rw [add_of_present wf (by rw [he]; simp : x ∈ st.elements_) hx] at h
    simp only [Option.some.injEq, Prod.mk.injEq] at h
    rw [← h.2]
    exact wf

theorem wf_remove {st st1 : StringSet} {b : Bool} {data : String} (wf : WF st)
    (h : remove st data = some (b, st1)) : WF st1 := by
  rcases absent_or_present st data with ha | ⟨a, x, c, he, hx⟩
  · rw [remove_of_absent wf ha] at h
    simp only [Option.some.injEq, Prod.mk.injEq] at h
    rw [← h.2]
    exact wf
  · rw [remove_of_split wf he hx] at h
    simp only [Option.some.injEq, Prod.mk.injEq] at h
    rw [← h.2]
    exact wf_remove_of_split wf he

theorem clear_eq_new (st : StringSet) : clear st = new st.hasher_ := rfl

theorem wf_of_reachable {st : StringSet} (h : Reachable st) : WF st := by
  induction h with
  | init hasher => exact wf_new hasher
  | add data _ h ih => exact wf_add ih h
  | remove data _ h ih => exact wf_remove ih h
  | clear _ _ => rw [clear_eq_new]; exact wf_new _

/-! ## Insertion and membership -/

/-- Claim C1: in every reachable state, for a string `s` with `contains(s)` false, `add(s)`
returns true, `contains(s)` is true immediately afterwards (whether or not the insertion
resized the table), and a second `add(s)` returns false. -/
theorem add_absent_contains_readd (st : StringSet) (s : String) (hr : Reachable st)
    (hc : contains st s = some false) :
    ∃ st1, add st s = some (true, st1) ∧ contains st1 s = some true
      ∧ ∃ st2, add st1 s = some (false, st2) := by
  have wf := wf_of_reachable hr
  have ha := (contains_false_iff wf s).mp hc
  have wf1 := wf_add_of_absent wf ha
  exact ⟨_, add_of_absent wf ha, contains_ofLog_snoc wf1 rfl, _,
    add_of_present wf1 (n := newNode st s) (by simp [ofLog]) rfl⟩

/-! ## Sample states for the concrete instances -/

theorem sampleSet_reachable : Reachable sampleSet :=
  Reachable.add "bb"
    (Reachable.add "a" (Reachable.init lengthHash)
      (rfl : add (new lengthHash) "a"
        = some (true, ofLog [{ addr := 0, first := "a", second := 1 }] 1 lengthHash)))
    (rfl : add (ofLog [{ addr := 0, first := "a", second := 1 }] 1 lengthHash) "bb"
        = some (true, sampleSet))

/-- Instance of claim C1 on `sampleSet` with the absent string "ccc", whose insertion
resizes the table. -/
theorem add_absent_contains_readd_witness :
    Reachable sampleSet ∧ contains sampleSet "ccc" = some false
      ∧ ∃ st1, add sampleSet "ccc" = some (true, st1) ∧ contains st1 "ccc" = some true
        ∧ ∃ st2, add st1 "ccc" = some (false, st2) :=
  ⟨sampleSet_reachable, rfl,
    add_absent_contains_readd sampleSet "ccc" sampleSet_reachable rfl⟩

/-! ## Removal and membership -/

theorem digest_ne_of_split {st : StringSet} (wf : WF st) {a c : List Node} {x : Node}
    (he : st.elements_ = a ++ x :: c) : ∀ n ∈ a ++ c, n.second ≠ x.second := by
  have hdig := wf.digest_nodup
  rw [he, List.map_append, List.map_cons, List.nodup_append, List.nodup_cons] at hdig
  intro n hn heq
  rcases List.mem_append.mp hn with h1 | h1
  · exact hdig.2.2 (List.mem_map_of_mem Node.second h1) (by rw [heq]; simp)
  · exact hdig.2.1.1 (heq ▸ List.mem_map_of_mem Node.second h1)

/-- Claim C2: in every reachable state `remove(s)` returns true exactly when `contains(s)`
was true just before the call, and after the call `contains(s)` is false. -/
theorem remove_iff_contains (st : StringSet) (s : String) (hr : Reachable st) :
    ∃ b st1, remove st s = some (b, st1) ∧ (b = true ↔ contains st s = some true)
      ∧ contains st1 s = some false := by
  have wf := wf_of_reachable hr
  rcases absent_or_present st s with ha | ⟨a, x, c, he, hx⟩
  · have hc := (contains_false_iff wf s).mpr ha
    exact ⟨false, st, remove_of_absent wf ha, by simp [hc], hc⟩
  · have hxe : x ∈ st.elements_ := by rw [he]; simp
    have hc := (contains_true_iff wf s).mpr ⟨x, hxe, hx⟩
    have wf1 := wf_remove_of_split wf he
    refine ⟨true, _, remove_of_split wf he hx, by simp [hc], ?_⟩
    rw [contains_false_iff wf1]
    intro n hn
    have := digest_ne_of_split wf he n hn
    rwa [hx] at this

/-- Instance of claim C2 on `sampleSet` with the stored string "bb". -/
theorem remove_iff_contains_witness :
    Reachable sampleSet
      ∧ ∃ b st1, remove sampleSet "bb" = some (b, st1)
        ∧ (b = true ↔ contains sampleSet "bb" = some true) ∧ contains st1 "bb" = some false :=
  ⟨sampleSet_reachable, remove_iff_contains sampleSet "bb" sampleSet_reachable⟩

/-- Claim C3, evaluated on colliding digests: with strings hashed by their length, after
`add("a")` the call `contains("b")` answers true although a full iteration yields only
"a". -/
theorem contains_true_for_absent_string :
    ∃ st, add (new lengthHash) "a" = some (true, st) ∧ Reachable st
      ∧ contains st "b" = some true ∧ toList st = ["a"] ∧ "b" ∉ toList st :=
  ⟨ofLog [{ addr := 0, first := "a", second := 1 }] 1 lengthHash, rfl,
    Reachable.add "a" (Reachable.init lengthHash) rfl, rfl, rfl, by decide⟩

/-- Claim C6: when `remove(s)` returns true in a reachable state, the log afterwards is
the log before with exactly one node excised; that node has cached digest `hasher(s)`,
no remaining node has it, and the other nodes are unchanged and in the same order. -/
theorem remove_excises_one (st st1 : StringSet) (s : String) (hr : Reachable st)
    (h : remove st s = some (true, st1)) :
    ∃ a x c, st.elements_ = a ++ x :: c ∧ st1.elements_ = a ++ c
      ∧ x.second = st.hasher_ s ∧ ∀ n ∈ a ++ c, n.second ≠ st.hasher_ s := by
  have wf := wf_of_reachable hr
  rcases absent_or_present st s with ha | ⟨a, x, c, he, hx⟩
  · rw [remove_of_absent wf ha] at h
    simp at h
  · rw [remove_of_split wf he hx] at h
    simp only [Option.some.injEq, Prod.mk.injEq, true_and] at h
    refine ⟨a, x, c, he, by rw [← h]; rfl, hx, ?_⟩
    intro n hn
    have := digest_ne_of_split wf he n hn
    rwa [hx] at this

/-- Instance of claim C6 on `sampleSet`: removing "a" leaves the node of "bb". -/
theorem remove_excises_one_witness :
    Reachable sampleSet
      ∧ remove sampleSet "a"
          = some (true, ofLog [{ addr := 1, first := "bb", second := 2 }] 2 lengthHash)
      ∧ ∃ a x c, sampleSet.elements_ = a ++ x :: c
        ∧ (ofLog [{ addr := 1, first := "bb", second := 2 }] 2 lengthHash).elements_ = a ++ c
        ∧ x.second = sampleSet.hasher_ "a" ∧ ∀ n ∈ a ++ c, n.second ≠ sampleSet.hasher_ "a" :=
  ⟨sampleSet_reachable, rfl,
    remove_excises_one sampleSet _ "a" sampleSet_reachable rfl⟩

/-! ## Clearing -/

/-- Claim C7: after `clear()` the size is 0, `empty()` is true, iteration yields nothing
and the table size is 1; the state is that of a default-constructed set with the same
hasher, so a second `clear()` changes nothing and a following `add` behaves as on a
fresh set.  This holds in every state, reachable or not. -/
theorem clear_resets (st : StringSet) :
    size (clear st) = 0 ∧ empty (clear st) = true ∧ toList (clear st) = []
      ∧ (clear st).table_size_ = 1 ∧ (clear st).table_ = [[]]
      ∧ clear st = new st.hasher_ ∧ clear (clear st) = clear st
      ∧ ∀ s, add (clear st) s = add (new st.hasher_) s :=
  ⟨rfl, rfl, rfl, rfl, rfl, rfl, rfl, fun _ => rfl⟩

/-! ## Bookkeeping of the element count -/

theorem size_ofLog (e : List Node) (ts : Nat) (hasher : String → Nat) :
    size (ofLog e ts hasher) = e.length := rfl

theorem WF.size_eq {st : StringSet} (wf : WF st) : size st = st.elements_.length :=
  wf.count_eq

theorem call_balance {st : StringSet} (wf : WF st) (c : Call) :
    ∃ b st1, call st c = some (b, st1) ∧ WF st1
      ∧ size st1 + removesTrue [c] [b] = size st + addsTrue [c] [b] := by
  cases c with
  | add data =>
    rcases absent_or_present st data with ha | ⟨a, x, c, he, hx⟩
    · refine ⟨true, _, add_of_absent wf ha, wf_add_of_absent wf ha, ?_⟩
      simp [size_ofLog, wf.size_eq, addsTrue, removesTrue, Call.isAdd]
    · exact ⟨false, st, add_of_present wf (by rw [he]; simp : x ∈ st.elements_) hx, wf,
        by simp [addsTrue, removesTrue, Call.isAdd]⟩
  | remove data =>
    rcases absent_or_present st data with ha | ⟨a, x, c, he, hx⟩
    · exact ⟨false, st, remove_of_absent wf ha, wf,
        by simp [addsTrue, removesTrue, Call.isAdd]⟩
    · refine ⟨true, _, remove_of_split wf he hx, wf_remove_of_split wf he, ?_⟩
      simp [size_ofLog, wf.size_eq, he, addsTrue, removesTrue, Call.isAdd]
      omega

theorem addsTrue_cons (c : Call) (cs : List Call) (b : Bool) (bs : List Bool) :
    addsTrue (c :: cs) (b :: bs) = addsTrue [c] [b] + addsTrue cs bs := by
  by_cases h : (c.isAdd && b) = true
  · simp [addsTrue, List.filter_cons, h]
    omega
  · simp [addsTrue, List.filter_cons, h]

theorem removesTrue_cons (c : Call) (cs : List Call) (b : Bool) (bs : List Bool) :
    removesTrue (c :: cs) (b :: bs) = removesTrue [c] [b] + removesTrue cs bs := by
  by_cases h : (!c.isAdd && b) = true
  · simp [removesTrue, List.filter_cons, h]
    omega
  · simp [removesTrue, List.filter_cons, h]

theorem run_balance (calls : List Call) :
    ∀ st : StringSet, WF st →
      ∃ flags st1, run st calls = some (flags, st1) ∧ flags.length = calls.length ∧ WF st1
        ∧ size st1 + removesTrue calls flags = size st + addsTrue calls flags := by
  induction calls with
  | nil => intro st wf; exact ⟨[], st, rfl, rfl, wf, by simp [addsTrue, removesTrue]⟩
  | cons c cs ih =>
    intro st wf
    obtain ⟨b, st1, hc, wf1, h1⟩ := call_balance wf c
    obtain ⟨bs, st2, hr, hlen, wf2, h2⟩ := ih st1 wf1
    refine ⟨b :: bs, st2, by simp [run, hc, hr], by simp [hlen], wf2, ?_⟩
    rw [addsTrue_cons, removesTrue_cons]
    omega

/-- Claim C4: every finite sequence of `add` and `remove` calls on a default-constructed
set runs to completion, and `size()` afterwards equals the number of `add` calls that
returned true minus the number of `remove` calls that returned true, and equals the
number of elements a full iteration yields. -/
theorem size_eq_adds_minus_removes (hasher : String → Nat) (calls : List Call) :
    ∃ flags st, run (new hasher) calls = some (flags, st) ∧ flags.length = calls.length
      ∧ (size st : Int) = (addsTrue calls flags : Int) - (removesTrue calls flags : Int)
      ∧ size st = (toList st).length := by
  obtain ⟨flags, st, hr, hlen, wf, hb⟩ := run_balance calls (new hasher) (wf_new hasher)
  refine ⟨flags, st, hr, hlen, ?_, ?_⟩
  · have h0 : size (new hasher) = 0 := rfl
    rw [h0] at hb
    omega
  · simp [toList, wf.size_eq]

/-! ## Insertion order -/

theorem toList_ofLog_snoc (e : List Node) (x : Node) (ts : Nat) (hasher : String → Nat) :
    toList (ofLog (e ++ [x]) ts hasher) = e.map Node.first ++ [x.first] := by
  simp [toList, ofLog]

theorem run_adds (l : List String) :
    ∀ st : StringSet, WF st →
      ∃ flags st1, run st (l.map Call.add) = some (flags, st1) ∧ flags.length = l.length
        ∧ WF st1 ∧ toList st1 = toList st ++ inserted l flags := by
  induction l with
  | nil => intro st wf; exact ⟨[], st, rfl, rfl, wf, by simp [inserted]⟩
  | cons s t ih =>
    intro st wf
    rcases absent_or_present st s with ha | ⟨a, x, c, he, hx⟩
    · obtain ⟨bs, st2, hr, hlen, wf2, h2⟩ := ih _ (wf_add_of_absent wf ha)
      refine ⟨true :: bs, st2, ?_, by simp [hlen], wf2, ?_⟩
      · simp [run, call, add_of_absent wf ha, hr]
      · rw [h2, toList_ofLog_snoc]
        simp [inserted, toList, newNode]
    · obtain ⟨bs, st2, hr, hlen, wf2, h2⟩ := ih st wf
      refine ⟨false :: bs, st2, ?_, by simp [hlen], wf2, ?_⟩
      · simp [run, call, add_of_present wf (by rw [he]; simp : x ∈ st.elements_) hx, hr]
      · rw [h2]
        simp [inserted]

/-- Claim C5: a sequence of `add` calls on a default-constructed set runs to completion and
a full iteration then yields exactly the strings of the calls that returned true, in the
order of those calls, whatever the number of resizes; and in every reachable state a
successful `add(s)` appends one node holding `s` at the end of the log and leaves the
earlier nodes unchanged. -/
theorem insertion_order_preserved :
    (∀ (hasher : String → Nat) (l : List String),
      ∃ flags st, run (new hasher) (l.map Call.add) = some (flags, st)
        ∧ flags.length = l.length ∧ toList st = inserted l flags)
    ∧ (∀ (st st1 : StringSet) (s : String), Reachable st → add st s = some (true, st1) →
        ∃ n : Node, n.first = s ∧ st1.elements_ = st.elements_ ++ [n]
          ∧ toList st1 = toList st ++ [s]) := by
  constructor
  · intro hasher l
    obtain ⟨flags, st, hr, hlen, _, h⟩ := run_adds l (new hasher) (wf_new hasher)
    exact ⟨flags, st, hr, hlen, by simpa [toList, new] using h⟩
  · intro st st1 s hr h
    have wf := wf_of_reachable hr
    rcases absent_or_present st s with ha | ⟨a, x, c, he, hx⟩
    · rw [add_of_absent wf ha] at h
      simp only [Option.some.injEq, Prod.mk.injEq, true_and] at h
      subst h
      exact ⟨newNode st s, rfl, rfl, by simp [toList, ofLog, newNode]⟩
    · rw [add_of_present wf (by rw [he]; simp : x ∈ st.elements_) hx] at h
      simp at h

/-- Instance of claim C5 on `sampleSet`: the resizing insertion of "ccc" appends it. -/
theorem insertion_order_preserved_witness :
    Reachable sampleSet
      ∧ ∃ n : Node, n.first = "ccc"
        ∧ (ofLog (sampleSet.elements_ ++ [{ addr := 2, first := "ccc", second := 3 }]) 4
            lengthHash).elements_ = sampleSet.elements_ ++ [n]
        ∧ toList (ofLog (sampleSet.elements_ ++ [{ addr := 2, first := "ccc", second := 3 }]) 4
            lengthHash) = toList sampleSet ++ ["ccc"] :=
  ⟨sampleSet_reachable,
    insertion_order_preserved.2 sampleSet _ "ccc" sampleSet_reachable rfl⟩

/-! ## The demonstration driver -/

/-- Claim C9: the calls of `main` on a default-constructed set whose hasher gives
"Some data" and "some data" different digests: `add("Some data")`, `add("Some data")`,
`contains("Some data")`, `contains("some data")`, `remove("Some data")`,
`remove("some data")` return true, false, true, false, true, false. -/
theorem main_scenario (hasher : String → Nat)
    (hne : hasher "Some data" ≠ hasher "some data") :
    ∃ s1 s2 s3 s4, add (new hasher) "Some data" = some (true, s1)
      ∧ add s1 "Some data" = some (false, s2)
      ∧ contains s2 "Some data" = some true
      ∧ contains s2 "some data" = some false
      ∧ remove s2 "Some data" = some (true, s3)
      ∧ remove s3 "some data" = some (false, s4) := by
  have wf0 := wf_new hasher
  have ha0 : ∀ n ∈ (new hasher).elements_, n.second ≠ (new hasher).hasher_ "Some data" := by
    simp [new]
  have wf1 := wf_add_of_absent wf0 ha0
  have hmem : newNode (new hasher) "Some data"
      ∈ (ofLog ((new hasher).elements_ ++ [newNode (new hasher) "Some data"])
          (grow (new hasher).elements_.length (new hasher).table_size_)
          (new hasher).hasher_).elements_ := by
    simp [ofLog]
  have he : (ofLog ((new hasher).elements_ ++ [newNode (new hasher) "Some data"])
      (grow (new hasher).elements_.length (new hasher).table_size_)
      (new hasher).hasher_).elements_
        = [] ++ newNode (new hasher) "Some data" :: [] := rfl
  have wf3 := wf_remove_of_split wf1 he
  refine ⟨_, _, _, _, add_of_absent wf0 ha0, add_of_present wf1 hmem rfl,
    (contains_true_iff wf1 _).mpr ⟨_, hmem, rfl⟩, ?_, remove_of_split wf1 he rfl,
    remove_of_absent wf3 (by simp [ofLog])⟩
  rw [contains_false_iff wf1]
  intro n hn
  have : n = newNode (new hasher) "Some data" := by simpa [ofLog, new] using hn
  rw [this]
  exact hne

/-- Instance of claim C9 with the character-sum hasher. -/
theorem main_scenario_witness :
    sumHash "Some data" ≠ sumHash "some data"
      ∧ ∃ s1 s2 s3 s4, add (new sumHash) "Some data" = some (true, s1)
        ∧ add s1 "Some data" = some (false, s2)
        ∧ contains s2 "Some data" = some true
        ∧ contains s2 "some data" = some false
        ∧ remove s2 "Some data" = some (true, s3)
        ∧ remove s3 "some data" = some (false, s4) :=
  ⟨by decide, main_scenario sumHash (by decide)⟩

/-! ## Digest collisions -/

/-- Claim C8, evaluated on colliding digests: with strings hashed by their length, adding
the two distinct strings "a" and "b" to a default-constructed set returns true then false
and leaves a set of size 1 that holds only "a". -/
theorem distinct_strings_lost_on_collision :
    ["a", "b"].Nodup
      ∧ ∃ st, run (new lengthHash) [Call.add "a", Call.add "b"] = some ([true, false], st)
        ∧ size st = 1 ∧ toList st = ["a"] :=
  ⟨by decide, ofLog [{ addr := 0, first := "a", second := 1 }] 1 lengthHash, rfl, rfl, rfl⟩

/-! ## Behaviour when digests do not collide -/

theorem firstOccurrencesFrom_nodup (l : List String) :
    ∀ acc : List String, acc.Nodup → (firstOccurrencesFrom acc l).Nodup := by
  induction l with
  | nil => intro acc h; exact h
  | cons s t ih =>
    intro acc h
    simp only [firstOccurrencesFrom, List.foldl_cons]
    by_cases hs : s ∈ acc
    · simpa [hs, firstOccurrencesFrom] using ih acc h
    · have h1 : (acc ++ [s]).Nodup := by
        rw [List.nodup_append]
        exact ⟨h, by simp, fun a ha hb => hs (by rwa [List.mem_singleton.mp hb] at ha)⟩
      simpa [hs, firstOccurrencesFrom] using ih _ h1

theorem mem_firstOccurrencesFrom (l : List String) :
    ∀ (acc : List String) (x : String),
      x ∈ firstOccurrencesFrom acc l ↔ x ∈ acc ∨ x ∈ l := by
  induction l with
  | nil => intro acc x; simp [firstOccurrencesFrom]
  | cons s t ih =>
    intro acc x
    have hstep : firstOccurrencesFrom acc (s :: t)
        = firstOccurrencesFrom (if s ∈ acc then acc else acc ++ [s]) t := rfl
    rw [hstep, ih]
    by_cases hs : s ∈ acc
    · simp only [hs, if_true, List.mem_cons]
      constructor
      · rintro (h | h)
        · exact Or.inl h
        · exact Or.inr (Or.inr h)
      · rintro (h | h | h)
        · exact Or.inl h
        · exact Or.inl (h ▸ hs)
        · exact Or.inr h
    · simp only [hs, if_false, List.mem_append, List.mem_singleton, List.mem_cons]
      tauto

theorem firstOccurrencesFrom_of_nodup (l : List String) :
    ∀ acc : List String, (acc ++ l).Nodup → firstOccurrencesFrom acc l = acc ++ l := by
  induction l with
  | nil => intro acc _; simp [firstOccurrencesFrom]
  | cons s t ih =>
    intro acc h
    have hstep : firstOccurrencesFrom acc (s :: t)
        = firstOccurrencesFrom (if s ∈ acc then acc else acc ++ [s]) t := rfl
    have hs : s ∉ acc := by
      intro hmem
      rw [List.nodup_append] at h
      exact h.2.2 hmem (List.mem_cons_self _ _)
    rw [hstep, if_neg hs, ih (acc ++ [s]) (by simpa [List.append_assoc] using h)]
    simp

theorem length_firstOccurrences (l : List String) :
    (firstOccurrences l).length = l.toFinset.card := by
  have hnd : (firstOccurrences l).Nodup := firstOccurrencesFrom_nodup l [] List.nodup_nil
  rw [← List.toFinset_card_of_nodup hnd]
  congr 1
  ext x
  simp [firstOccurrences, mem_firstOccurrencesFrom]

theorem contains_of_stored {st : StringSet} (wf : WF st) {s : String} (hs : s ∈ toList st) :
    contains st s = some true := by
  obtain ⟨n, hn, hfirst⟩ := List.mem_map.mp hs
  exact (contains_true_iff wf s).mpr ⟨n, hn, by rw [wf.digest_eq n hn, hfirst]⟩

theorem run_adds_of_injOn (l : List String) :
    ∀ st : StringSet, WF st →
      (∀ s ∈ toList st ++ l, ∀ t ∈ toList st ++ l, st.hasher_ s = st.hasher_ t → s = t) →
      ∃ flags st1, run st (l.map Call.add) = some (flags, st1) ∧ WF st1
        ∧ toList st1 = firstOccurrencesFrom (toList st) l := by
  induction l with
  | nil => intro st wf _; exact ⟨[], st, rfl, wf, rfl⟩
  | cons s t ih =>
    intro st wf hinj
    have hstep : firstOccurrencesFrom (toList st) (s :: t)
        = firstOccurrencesFrom (if s ∈ toList st then toList st else toList st ++ [s]) t := rfl
    by_cases hs : s ∈ toList st
    · obtain ⟨n, hn, hfirst⟩ := List.mem_map.mp hs
      have hadd := add_of_present wf hn (by rw [wf.digest_eq n hn, hfirst] : n.second = st.hasher_ s)
      obtain ⟨bs, st2, hr, wf2, h2⟩ := ih st wf (by
        intro a ha b hb
        exact hinj a (by simp at ha ⊢; tauto) b (by simp at hb ⊢; tauto))
      refine ⟨false :: bs, st2, by simp [run, call, hadd, hr], wf2, ?_⟩
      rw [h2, hstep, if_pos hs]
    · have ha : ∀ n ∈ st.elements_, n.second ≠ st.hasher_ s := by
        intro n hn heq
        have hmem : n.first ∈ toList st := List.mem_map_of_mem Node.first hn
        have := hinj n.first (by simp [hmem]) s (by simp)
          (by rw [← wf.digest_eq n hn, heq])
        exact hs (this ▸ hmem)
      have wf1 := wf_add_of_absent wf ha
      have htl := toList_ofLog_snoc st.elements_ (newNode st s)
        (grow st.elements_.length st.table_size_) st.hasher_
      have htl2 : toList (ofLog (st.elements_ ++ [newNode st s])
          (grow st.elements_.length st.table_size_) st.hasher_) = toList st ++ [s] := htl
      obtain ⟨bs, st2, hr, wf2, h2⟩ := ih _ wf1 (by
        rw [htl2]
        intro a ha b hb
        exact hinj a (by simp at ha ⊢; tauto) b (by simp at hb ⊢; tauto))
      refine ⟨true :: bs, st2, by simp [run, call, add_of_absent wf ha, hr], wf2, ?_⟩
      rw [h2, htl2, hstep, if_neg hs]

/-- A string a full iteration yields is reported by `contains`, in every reachable state
and for every hasher. -/
theorem stored_implies_contains (st : StringSet) (s : String) (hr : Reachable st)
    (hs : s ∈ toList st) : contains st s = some true :=
  contains_of_stored (wf_of_reachable hr) hs

/-- Instance on `sampleSet` with the stored string "bb". -/
theorem stored_implies_contains_witness :
    Reachable sampleSet ∧ "bb" ∈ toList sampleSet ∧ contains sampleSet "bb" = some true :=
  ⟨sampleSet_reachable, by decide,
    stored_implies_contains sampleSet "bb" sampleSet_reachable (by decide)⟩

/-- When no stored string other than `s` has the digest of `s`, `contains(s)` is true
exactly when a full iteration yields `s`. -/
theorem contains_iff_stored_of_no_collision (st : StringSet) (s : String) (hr : Reachable st)
    (hinj : ∀ t ∈ toList st, st.hasher_ t = st.hasher_ s → t = s) :
    contains st s = some true ↔ s ∈ toList st := by
  have wf := wf_of_reachable hr
  constructor
  · intro hc
    obtain ⟨n, hn, hd⟩ := (contains_true_iff wf s).mp hc
    have hmem : n.first ∈ toList st := List.mem_map_of_mem Node.first hn
    have := hinj n.first hmem (by rw [← wf.digest_eq n hn, hd])
    exact this ▸ hmem
  · exact contains_of_stored wf

/-- Instance on `sampleSet` with the absent string "ccc", whose length no stored string
has. -/
theorem contains_iff_stored_of_no_collision_witness :
    Reachable sampleSet
      ∧ (∀ t ∈ toList sampleSet, sampleSet.hasher_ t = sampleSet.hasher_ "ccc" → t = "ccc")
      ∧ (contains sampleSet "ccc" = some true ↔ "ccc" ∈ toList sampleSet) :=
  ⟨sampleSet_reachable, by decide,
    contains_iff_stored_of_no_collision sampleSet "ccc" sampleSet_reachable (by decide)⟩

/-- Adding the strings of a list whose digests are pairwise distinct to a
default-constructed set loses and duplicates nothing: the size is the length of the list,
iteration yields the list, and `contains` is true for each of its strings. -/
theorem adds_with_distinct_digests (hasher : String → Nat) (l : List String)
    (hnd : (l.map hasher).Nodup) :
    ∃ flags st, run (new hasher) (l.map Call.add) = some (flags, st)
      ∧ size st = l.length ∧ toList st = l ∧ ∀ s ∈ l, contains st s = some true := by
  have hl : l.Nodup := List.Nodup.of_map hasher hnd
  obtain ⟨flags, st, hr, wf, h⟩ := run_adds_of_injOn l (new hasher) (wf_new hasher) (by
    intro s hs t ht heq
    exact List.inj_on_of_nodup_map hnd (by simpa [toList, new] using hs)
      (by simpa [toList, new] using ht) heq)
  have htl : toList st = l := by
    rw [h]
    simpa [toList, new] using firstOccurrencesFrom_of_nodup l [] (by simpa using hl)
  refine ⟨flags, st, hr, ?_, htl, fun s hs => contains_of_stored wf (htl ▸ hs)⟩
  rw [wf.size_eq, ← htl]
  simp [toList]

/-- Instance with the length hasher and three strings of different lengths. -/
theorem adds_with_distinct_digests_witness :
    (["a", "bb", "ccc"].map lengthHash).Nodup
      ∧ ∃ flags st, run (new lengthHash) (["a", "bb", "ccc"].map Call.add) = some (flags, st)
        ∧ size st = ["a", "bb", "ccc"].length ∧ toList st = ["a", "bb", "ccc"]
        ∧ ∀ s ∈ ["a", "bb", "ccc"], contains st s = some true :=
  ⟨by decide, adds_with_distinct_digests lengthHash ["a", "bb", "ccc"] (by decide)⟩

/-- Adding the members of a list in order to a default-constructed set, with a hasher that
gives the distinct strings of the list distinct digests, deduplicates: iteration yields the
strings in first-occurrence order, the size is the number of distinct strings, and
`contains` is true for every string of the list. -/
theorem adds_deduplicate (hasher : String → Nat) (l : List String)
    (hinj : ∀ s ∈ l, ∀ t ∈ l, hasher s = hasher t → s = t) :
    ∃ flags st, run (new hasher) (l.map Call.add) = some (flags, st)
      ∧ toList st = firstOccurrences l ∧ size st = l.toFinset.card
      ∧ ∀ s ∈ l, contains st s = some true := by
  obtain ⟨flags, st, hr, wf, h⟩ := run_adds_of_injOn l (new hasher) (wf_new hasher) (by
    intro s hs t ht heq
    exact hinj s (by simpa [toList, new] using hs) t (by simpa [toList, new] using ht) heq)
  have htl : toList st = firstOccurrences l := h
  refine ⟨flags, st, hr, htl, ?_, ?_⟩
  · rw [← length_firstOccurrences, ← htl, wf.size_eq]
    simp [toList]
  · intro s hs
    apply contains_of_stored wf
    rw [htl]
    exact (mem_firstOccurrencesFrom l [] s).mpr (Or.inr hs)

/-- Instance with the list "x", "y", "x" and the character-sum hasher: size 2, holding
"x" and "y". -/
theorem adds_deduplicate_witness :
    (∀ s ∈ ["x", "y", "x"], ∀ t ∈ ["x", "y", "x"], sumHash s = sumHash t → s = t)
      ∧ ∃ flags st, run (new sumHash) (["x", "y", "x"].map Call.add) = some (flags, st)
        ∧ toList st = firstOccurrences ["x", "y", "x"]
        ∧ size st = ["x", "y", "x"].toFinset.card
        ∧ ∀ s ∈ ["x", "y", "x"], contains st s = some true :=
  ⟨by decide, adds_deduplicate sumHash ["x", "y", "x"] (by decide)⟩

/-! ## Rejected insertion, lookup and uniqueness -/

theorem eq_of_digest_eq {st : StringSet} (wf : WF st) {n m : Node} (hn : n ∈ st.elements_)
    (hm : m ∈ st.elements_) (h : n.second = m.second) : n = m :=
  List.inj_on_of_nodup_map wf.digest_nodup hn hm h

theorem add_true_absent {st st1 : StringSet} {s : String} (wf : WF st)
    (h : add st s = some (true, st1)) :
    (∀ n ∈ st.elements_, n.second ≠ st.hasher_ s)
      ∧ st1 = ofLog (st.elements_ ++ [newNode st s])
          (grow st.elements_.length st.table_size_) st.hasher_ := by
  rcases absent_or_present st s with ha | ⟨a, x, c, he, hx⟩
  · rw [add_of_absent wf ha] at h
    simp only [Option.some.injEq, Prod.mk.injEq, true_and] at h
    exact ⟨ha, h.symm⟩
  · rw [add_of_present wf (by rw [he]; simp : x ∈ st.elements_) hx] at h
    simp at h

theorem add_false_eq {st st1 : StringSet} {s : String} (wf : WF st)
    (h : add st s = some (false, st1)) : st1 = st := by
  rcases absent_or_present st s with ha | ⟨a, x, c, he, hx⟩
  · rw [add_of_absent wf ha] at h
    simp at h
  · rw [add_of_present wf (by rw [he]; simp : x ∈ st.elements_) hx] at h
    simp only [Option.some.injEq, Prod.mk.injEq, true_and] at h
    exact h.symm

/-- Claim C11: when `add(s)` returns false in a reachable state the set is not mutated:
the element log, the bucket table, the element count and the table size (and the hasher)
are the same before and after the call. -/
theorem add_false_no_mutation (st st1 : StringSet) (s : String) (hr : Reachable st)
    (h : add st s = some (false, st1)) :
    st1 = st ∧ st1.elements_ = st.elements_ ∧ st1.table_ = st.table_
      ∧ st1.nElements_ = st.nElements_ ∧ st1.table_size_ = st.table_size_ := by
  have := add_false_eq (wf_of_reachable hr) h
  subst this
  exact ⟨rfl, rfl, rfl, rfl, rfl⟩

/-- Instance of claim C11 on `sampleSet` with the stored string "a". -/
theorem add_false_no_mutation_witness :
    Reachable sampleSet ∧ add sampleSet "a" = some (false, sampleSet)
      ∧ sampleSet = sampleSet ∧ sampleSet.elements_ = sampleSet.elements_
      ∧ sampleSet.table_ = sampleSet.table_ ∧ sampleSet.nElements_ = sampleSet.nElements_
      ∧ sampleSet.table_size_ = sampleSet.table_size_ :=
  ⟨sampleSet_reachable, rfl,
    add_false_no_mutation sampleSet sampleSet "a" sampleSet_reachable rfl⟩

/-- Claim C12: in every reachable state `find(s)` returns a result, the read-only overload
returns the same one, it is the end sentinel exactly when no log node has cached digest
`hasher(s)`, otherwise it points to the log node with that digest, and when `s` is stored
it points to the node holding `s`, so that dereferencing it gives `s`. -/
theorem find_position (st : StringSet) (s : String) (hr : Reachable st) :
    ∃ it : iterator, find st s = some it ∧ find_const st s = some it
      ∧ (it = end_ st ↔ ∀ n ∈ st.elements_, n.second ≠ st.hasher_ s)
      ∧ (∀ a, it = some a →
          ∃ n ∈ st.elements_, deref st.elements_ a = some n ∧ n.addr = a
            ∧ n.second = st.hasher_ s)
      ∧ (s ∈ toList st → star st it = some s) := by
  have wf := wf_of_reachable hr
  refine ⟨_, find_eq wf s, by rw [find_const_eq_find, find_eq wf], ?_⟩
  cases hf : st.elements_.find? (fun n => n.second == st.hasher_ s) with
  | none =>
    have hnone := List.find?_eq_none.mp hf
    refine ⟨?_, ?_, ?_⟩
    · simp only [Option.map_none', end_, true_iff]
      intro n hn heq
      exact hnone n hn (by simpa using heq)
    · intro a ha
      simp at ha
    · intro hs
      obtain ⟨m, hm, hfirst⟩ := List.mem_map.mp hs
      exact absurd (by simp [wf.digest_eq m hm, hfirst]) (hnone m hm)
  | some n =>
    have hn : n ∈ st.elements_ := List.mem_of_find?_eq_some hf
    have hd : n.second = st.hasher_ s := by simpa using List.find?_some hf
    refine ⟨?_, ?_, ?_⟩
    · simp only [Option.map_some', end_]
      constructor
      · intro h
        simp at h
      · intro h
        exact absurd hd (h n hn)
    · intro a ha
      simp only [Option.map_some', Option.some.injEq] at ha
      subst ha
      exact ⟨n, hn, deref_of_mem wf.addr_nodup hn, rfl, hd⟩
    · intro hs
      obtain ⟨m, hm, hfirst⟩ := List.mem_map.mp hs
      have hmn : m = n :=
        eq_of_digest_eq wf hm hn (by rw [wf.digest_eq m hm, hfirst, hd])
      subst hmn
      simp [star, deref_of_mem wf.addr_nodup hm, hfirst]

/-- Instance of claim C12 on `sampleSet` with the stored string "bb". -/
theorem find_position_witness :
    Reachable sampleSet
      ∧ ∃ it : iterator, find sampleSet "bb" = some it ∧ find_const sampleSet "bb" = some it
        ∧ (it = end_ sampleSet ↔ ∀ n ∈ sampleSet.elements_, n.second ≠ sampleSet.hasher_ "bb")
        ∧ (∀ a, it = some a →
            ∃ n ∈ sampleSet.elements_, deref sampleSet.elements_ a = some n ∧ n.addr = a
              ∧ n.second = sampleSet.hasher_ "bb")
        ∧ ("bb" ∈ toList sampleSet → star sampleSet it = some "bb") :=
  ⟨sampleSet_reachable, find_position sampleSet "bb" sampleSet_reachable⟩

theorem toList_nodup_of_wf {st : StringSet} (wf : WF st) : (toList st).Nodup := by
  have h := wf.digest_nodup
  have hmap : st.elements_.map Node.second = (st.elements_.map Node.first).map st.hasher_ := by
    rw [List.map_map]
    exact List.map_congr_left (fun n hn => wf.digest_eq n hn)
  rw [hmap] at h
  exact List.Nodup.of_map _ h

/-- Claim C13: in every reachable state, for any hasher, the strings a full iteration
yields are pairwise distinct. -/
theorem stored_strings_distinct (st : StringSet) (hr : Reachable st) : (toList st).Nodup :=
  toList_nodup_of_wf (wf_of_reachable hr)

/-- Instance of claim C13 on `sampleSet`. -/
theorem stored_strings_distinct_witness :
    Reachable sampleSet ∧ (toList sampleSet).Nodup :=
  ⟨sampleSet_reachable, stored_strings_distinct sampleSet sampleSet_reachable⟩

/-! ## The bucket table mirrors the log -/

theorem indicator_sum (k n : Nat) :
    ((List.range n).map (fun b => if k = b then 1 else 0)).sum = if k < n then 1 else 0 := by
  induction n with
  | zero => simp
  | succ m ih =>
    rw [List.range_succ, List.map_append, List.sum_append, ih]
    by_cases h1 : k < m
    · have h2 : k ≠ m := by omega
      have h3 : k < m + 1 := by omega
      simp [h1, h2, h3]
    · by_cases h2 : k = m
      · simp [h2]
      · have h3 : ¬ k < m + 1 := by omega
        simp [h1, h2, h3]

theorem chainOf_cons (x : Node) (e : List Node) (ts b : Nat) :
    chainOf (x :: e) ts b = (if x.second % ts = b then [x.addr] else []) ++ chainOf e ts b := by
  unfold chainOf
  by_cases h : x.second % ts = b <;> simp [List.filter_cons, h]

theorem sum_chain_lengths (e : List Node) (ts : Nat) (hts : 0 < ts) :
    ((List.range ts).map (fun b => (chainOf e ts b).length)).sum = e.length := by
  induction e with
  | nil => simp [chainOf]
  | cons x t ih =>
    have hsplit : (fun b => (chainOf (x :: t) ts b).length)
        = (fun b => (if x.second % ts = b then 1 else 0) + (chainOf t ts b).length) := by
      funext b
      rw [chainOf_cons]
      by_cases h : x.second % ts = b
      · simp [h, Nat.add_comm]
      · simp [h]
    rw [hsplit, List.sum_map_add, ih, indicator_sum, if_pos (Nat.mod_lt _ hts)]
    simp
    omega

theorem total_entries_buildTable (e : List Node) (ts : Nat) (hts : 0 < ts) :
    ((buildTable e ts).map List.length).sum = e.length := by
  rw [← sum_chain_lengths e ts hts]
  simp [buildTable, List.map_map, Function.comp_def]

theorem count_chainOf {e : List Node} (hnd : (e.map Node.addr).Nodup) {n : Node}
    (hn : n ∈ e) (ts b : Nat) :
    (chainOf e ts b).count n.addr = if b = n.second % ts then 1 else 0 := by
  have hsub : (chainOf e ts b).Nodup :=
    hnd.sublist ((List.filter_sublist e).map Node.addr)
  rw [List.count_eq_of_nodup hsub]
  have hmem : n.addr ∈ chainOf e ts b ↔ b = n.second % ts := by
    simp only [chainOf, List.mem_map, List.mem_filter, beq_iff_eq]
    constructor
    · rintro ⟨m, ⟨hm, hb⟩, haddr⟩
      have : m = n := List.inj_on_of_nodup_map hnd hm hn haddr
      rw [← this, hb]
    · intro hb
      exact ⟨n, ⟨hn, hb.symm⟩, rfl⟩
  by_cases hb : b = n.second % ts
  · rw [if_pos (hmem.mpr hb), if_pos hb]
  · rw [if_neg (fun h => hb (hmem.mp h)), if_neg hb]

theorem total_count_buildTable {e : List Node} (hnd : (e.map Node.addr).Nodup) {n : Node}
    (hn : n ∈ e) {ts : Nat} (hts : 0 < ts) :
    ((buildTable e ts).map (List.count n.addr)).sum = 1 := by
  have h1 : (buildTable e ts).map (List.count n.addr)
      = (List.range ts).map (fun b => if n.second % ts = b then 1 else 0) := by
    simp only [buildTable, List.map_map]
    apply List.map_congr_left
    intro b _
    simp only [Function.comp_apply, count_chainOf hnd hn ts b]
    by_cases hb : b = n.second % ts
    · simp [hb]
    · have hb2 : ¬ n.second % ts = b := fun h => hb h.symm
      simp [hb, hb2]
  rw [h1, indicator_sum, if_pos (Nat.mod_lt _ hts)]

/-- Claim C14: in every reachable state the bucket array has `table_size_` chains; every
log node is referenced by exactly one chain entry, and that entry lies in the chain at
index (cached digest mod table size); every chain entry points to a live log node; and
the element count equals the log length and the total number of chain entries. -/
theorem bucket_table_invariant (st : StringSet) (hr : Reachable st) :
    st.table_.length = st.table_size_
      ∧ (∀ n ∈ st.elements_, ∀ b chain, st.table_[b]? = some chain →
          chain.count n.addr = if b = n.second % st.table_size_ then 1 else 0)
      ∧ (∀ n ∈ st.elements_, ∃ chain,
          st.table_[n.second % st.table_size_]? = some chain ∧ n.addr ∈ chain)
      ∧ (∀ n ∈ st.elements_, (st.table_.map (List.count n.addr)).sum = 1)
      ∧ (∀ chain ∈ st.table_, ∀ a ∈ chain, ∃ n ∈ st.elements_, n.addr = a)
      ∧ (st.elements_.map Node.addr).Nodup
      ∧ st.nElements_ = st.elements_.length
      ∧ st.nElements_ = (st.table_.map List.length).sum := by
  have wf := wf_of_reachable hr
  have hpos := wf.size_pos
  have hlen : st.table_.length = st.table_size_ := by rw [wf.table_eq, length_buildTable]
  have hget : ∀ b chain, st.table_[b]? = some chain →
      b < st.table_size_ ∧ chain = chainOf st.elements_ st.table_size_ b := by
    intro b chain hb
    have hlt : b < st.table_size_ := by
      by_contra hge
      rw [List.getElem?_eq_none (by omega)] at hb
      cases hb
    rw [wf.table_eq, getElem?_buildTable _ hlt] at hb
    exact ⟨hlt, (Option.some.inj hb).symm⟩
  refine ⟨hlen, ?_, ?_, ?_, ?_, wf.addr_nodup, wf.count_eq, ?_⟩
  · intro n hn b chain hb
    rw [(hget b chain hb).2]
    exact count_chainOf wf.addr_nodup hn _ b
  · intro n hn
    have hb : n.second % st.table_size_ < st.table_size_ := Nat.mod_lt _ hpos
    refine ⟨chainOf st.elements_ st.table_size_ (n.second % st.table_size_), ?_, ?_⟩
    · rw [wf.table_eq, getElem?_buildTable _ hb]
    · simp only [chainOf, List.mem_map, List.mem_filter, beq_iff_eq]
      exact ⟨n, ⟨hn, rfl⟩, rfl⟩
  · intro n hn
    rw [wf.table_eq]
    exact total_count_buildTable wf.addr_nodup hn hpos
  · intro chain hchain a ha
    obtain ⟨b, hb⟩ := List.getElem?_of_mem hchain
    rw [(hget b chain hb).2] at ha
    simp only [chainOf, List.mem_map, List.mem_filter] at ha
    obtain ⟨n, ⟨hn, _⟩, haddr⟩ := ha
    exact ⟨n, hn, haddr⟩
  · rw [wf.count_eq, wf.table_eq, total_entries_buildTable _ _ hpos]

/-- Instance of claim C14 on `sampleSet`. -/
theorem bucket_table_invariant_witness :
    Reachable sampleSet
      ∧ sampleSet.table_.length = sampleSet.table_size_
      ∧ (∀ n ∈ sampleSet.elements_, ∀ b chain, sampleSet.table_[b]? = some chain →
          chain.count n.addr = if b = n.second % sampleSet.table_size_ then 1 else 0)
      ∧ (∀ n ∈ sampleSet.elements_, ∃ chain,
          sampleSet.table_[n.second % sampleSet.table_size_]? = some chain ∧ n.addr ∈ chain)
      ∧ (∀ n ∈ sampleSet.elements_, (sampleSet.table_.map (List.count n.addr)).sum = 1)
      ∧ (∀ chain ∈ sampleSet.table_, ∀ a ∈ chain, ∃ n ∈ sampleSet.elements_, n.addr = a)
      ∧ (sampleSet.elements_.map Node.addr).Nodup
      ∧ sampleSet.nElements_ = sampleSet.elements_.length
      ∧ sampleSet.nElements_ = (sampleSet.table_.map List.length).sum :=
  ⟨sampleSet_reachable, bucket_table_invariant sampleSet sampleSet_reachable⟩

/-! ## Load factor and resize trigger -/

theorem grow_cases (n ts : Nat) : grow n ts = ts ∨ grow n ts = ts * EXPANSION_COEFFICIENT := by
  unfold grow EXPANSION_COEFFICIENT
  by_cases h : n + 1 > ts
  · exact Or.inr (if_pos h)
  · exact Or.inl (if_neg h)

theorem remove_table_size {st st1 : StringSet} {b : Bool} {s : String} (wf : WF st)
    (h : remove st s = some (b, st1)) : st1.table_size_ = st.table_size_ := by
  rcases absent_or_present st s with ha | ⟨a, x, c, he, hx⟩
  · rw [remove_of_absent wf ha] at h
    simp only [Option.some.injEq, Prod.mk.injEq] at h
    rw [← h.2]
  · rw [remove_of_split wf he hx] at h
    simp only [Option.some.injEq, Prod.mk.injEq] at h
    rw [← h.2]
    rfl

/-- Claim C15: in every reachable state the element count is at most the table size, and
this holds again immediately after any `add`, whose table size is the old one or the old
one doubled once. -/
theorem load_factor_bounded (st : StringSet) (hr : Reachable st) :
    st.nElements_ ≤ st.table_size_
      ∧ ∀ (s : String) (b : Bool) (st1 : StringSet), add st s = some (b, st1) →
          st1.nElements_ ≤ st1.table_size_
            ∧ (st1.table_size_ = st.table_size_
              ∨ st1.table_size_ = st.table_size_ * EXPANSION_COEFFICIENT) := by
  have wf := wf_of_reachable hr
  refine ⟨wf.load, ?_⟩
  intro s b st1 h
  refine ⟨(wf_add wf h).load, ?_⟩
  cases b with
  | false => exact Or.inl (by rw [add_false_eq wf h])
  | true =>
    rw [(add_true_absent wf h).2]
    exact grow_cases _ _

/-- Instance of claim C15 on `sampleSet`, which is full: two elements, table size 2. -/
theorem load_factor_bounded_witness :
    Reachable sampleSet
      ∧ sampleSet.nElements_ ≤ sampleSet.table_size_
      ∧ ∀ (s : String) (b : Bool) (st1 : StringSet), add sampleSet s = some (b, st1) →
          st1.nElements_ ≤ st1.table_size_
            ∧ (st1.table_size_ = sampleSet.table_size_
              ∨ st1.table_size_ = sampleSet.table_size_ * EXPANSION_COEFFICIENT) :=
  ⟨sampleSet_reachable, load_factor_bounded sampleSet sampleSet_reachable⟩

/-- Claim C16: in a reachable state a successful `add` raises the element count by one and
leaves the table size exactly doubled when the new count exceeds the old table size,
unchanged otherwise; an `add` that returns false and a `remove` leave the table size
unchanged (`find` and `contains` return no state: they assign no member). -/
theorem resize_trigger (st : StringSet) (hr : Reachable st) :
    (∀ (s : String) (st1 : StringSet), add st s = some (true, st1) →
        st1.nElements_ = st.nElements_ + 1
          ∧ st1.table_size_
              = if st1.nElements_ > st.table_size_
                then st.table_size_ * EXPANSION_COEFFICIENT else st.table_size_)
      ∧ (∀ (s : String) (st1 : StringSet), add st s = some (false, st1) →
          st1.table_size_ = st.table_size_)
      ∧ (∀ (s : String) (b : Bool) (st1 : StringSet), remove st s = some (b, st1) →
          st1.table_size_ = st.table_size_) := by
  have wf := wf_of_reachable hr
  refine ⟨?_, ?_, ?_⟩
  · intro s st1 h
    rw [(add_true_absent wf h).2]
    simp only [ofLog, grow, EXPANSION_COEFFICIENT, wf.count_eq, List.length_append,
      List.length_singleton, true_and]
  · intro s st1 h
    rw [add_false_eq wf h]
  · intro s b st1 h
    exact remove_table_size wf h

/-- Instance of claim C16 on `sampleSet`: inserting "ccc" makes three elements in a table
of size 2, which doubles to 4. -/
theorem resize_trigger_witness :
    Reachable sampleSet
      ∧ (∃ st1, add sampleSet "ccc" = some (true, st1) ∧ st1.nElements_ = 3
          ∧ st1.table_size_ = 4)
      ∧ (∀ (s : String) (st1 : StringSet), add sampleSet s = some (true, st1) →
          st1.nElements_ = sampleSet.nElements_ + 1
            ∧ st1.table_size_
                = if st1.nElements_ > sampleSet.table_size_
                  then sampleSet.table_size_ * EXPANSION_COEFFICIENT
                  else sampleSet.table_size_)
      ∧ (∀ (s : String) (st1 : StringSet), add sampleSet s = some (false, st1) →
          st1.table_size_ = sampleSet.table_size_)
      ∧ (∀ (s : String) (b : Bool) (st1 : StringSet), remove sampleSet s = some (b, st1) →
          st1.table_size_ = sampleSet.table_size_) :=
  ⟨sampleSet_reachable, ⟨_, rfl, rfl, rfl⟩, resize_trigger sampleSet sampleSet_reachable⟩

/-! ## Digests -/

/-- Claim C19: in every reachable state, for any hasher, no two log nodes have the same
cached digest, and the cached digest of every node is the hasher applied to its string. -/
theorem digest_unique (st : StringSet) (hr : Reachable st) :
    (st.elements_.map Node.second).Nodup
      ∧ (∀ n ∈ st.elements_, ∀ m ∈ st.elements_, n.second = m.second → n = m)
      ∧ ∀ n ∈ st.elements_, n.second = st.hasher_ n.first := by
  have wf := wf_of_reachable hr
  exact ⟨wf.digest_nodup, fun n hn m hm h => eq_of_digest_eq wf hn hm h, wf.digest_eq⟩

/-- Instance of claim C19 on `sampleSet`. -/
theorem digest_unique_witness :
    Reachable sampleSet
      ∧ (sampleSet.elements_.map Node.second).Nodup
      ∧ (∀ n ∈ sampleSet.elements_, ∀ m ∈ sampleSet.elements_, n.second = m.second → n = m)
      ∧ ∀ n ∈ sampleSet.elements_, n.second = sampleSet.hasher_ n.first :=
  ⟨sampleSet_reachable, digest_unique sampleSet sampleSet_reachable⟩

/-- Claim C20: in a reachable state, for strings `s` and `t` with different digests, both
`add(s)` (resizing or not) and `remove(s)` return and leave the answer of `contains(t)`
as it was before the call. -/
theorem other_keys_undisturbed (st : StringSet) (s t : String) (hr : Reachable st)
    (hne : st.hasher_ s ≠ st.hasher_ t) :
    (∃ b st1, add st s = some (b, st1) ∧ contains st1 t = contains st t)
      ∧ ∃ b st1, remove st s = some (b, st1) ∧ contains st1 t = contains st t := by
  have wf := wf_of_reachable hr
  rcases absent_or_present st s with ha | ⟨a, x, c, he, hx⟩
  · refine ⟨⟨true, _, add_of_absent wf ha, ?_⟩, ⟨false, st, remove_of_absent wf ha, rfl⟩⟩
    rw [contains_eq (wf_add_of_absent wf ha), contains_eq wf]
    simp [ofLog, List.find?_append, List.find?_cons, newNode, hne]
  · have hxe : x ∈ st.elements_ := by rw [he]; simp
    refine ⟨⟨false, st, add_of_present wf hxe hx, rfl⟩, ⟨true, _, remove_of_split wf he hx, ?_⟩⟩
    rw [contains_eq (wf_remove_of_split wf he), contains_eq wf, he]
    have hxt : ¬ x.second = st.hasher_ t := by rw [hx]; exact hne
    simp [ofLog, List.find?_append, List.find?_cons, hxt]

/-- Instance of claim C20 on `sampleSet` with `s` the absent string "ccc", whose insertion
resizes the table, and `t` the stored string "a". -/
theorem other_keys_undisturbed_witness :
    Reachable sampleSet ∧ sampleSet.hasher_ "ccc" ≠ sampleSet.hasher_ "a"
      ∧ (∃ b st1, add sampleSet "ccc" = some (b, st1)
          ∧ contains st1 "a" = contains sampleSet "a")
      ∧ ∃ b st1, remove sampleSet "ccc" = some (b, st1)
          ∧ contains st1 "a" = contains sampleSet "a" :=
  ⟨sampleSet_reachable, by decide,
    other_keys_undisturbed sampleSet "ccc" "a" sampleSet_reachable (by decide)⟩

/-! ## Resize against the rebuild from cached digests -/

theorem expand_loop_eq_rebucket_loop (hasher : String → Nat) (ts : Nat) :
    ∀ (rest : List Node) (table : List (List Nat)),
      (∀ n ∈ rest, n.second = hasher n.first) →
      expand_loop hasher ts rest table = rebucket_loop ts rest table := by
  intro rest
  induction rest with
  | nil => intro table _; rfl
  | cons i t ih =>
    intro table hh
    have hi : hasher i.first = i.second := (hh i (List.mem_cons_self _ _)).symm
    simp only [expand_loop, rebucket_loop, hi]
    by_cases hts : ts = 0
    · simp [hts]
    · simp only [hts, if_false]
      cases table[i.second % ts]? with
      | none => rfl
      | some chain => exact ih _ (fun n hn => hh n (List.mem_cons_of_mem _ hn))

theorem expand_eq_expand_cached {st : StringSet}
    (hh : ∀ n ∈ st.elements_, n.second = st.hasher_ n.first) :
    expand st = expand_cached st := by
  simp only [expand, expand_cached, expand_loop_eq_rebucket_loop _ _ _ _ hh]

theorem rebucket_loop_eq {ts : Nat} (hts : 0 < ts) :
    ∀ (rest done : List Node),
      rebucket_loop ts rest (buildTable done ts) = some (buildTable (done ++ rest) ts) := by
  intro rest
  induction rest with
  | nil => intro done; simp [rebucket_loop]
  | cons i t ih =>
    intro done
    have hb : i.second % ts < ts := Nat.mod_lt _ hts
    simp only [rebucket_loop, Nat.ne_of_gt hts, if_false]
    rw [getElem?_buildTable _ hb]
    simp only []
    rw [buildTable_append done i hts, ih (done ++ [i])]
    simp

theorem expand_of_wf {st : StringSet} (wf : WF st) :
    expand st = some (ofLog st.elements_ (st.table_size_ * 2) st.hasher_) := by
  have := @expand_ofLog st.elements_ st.table_size_ st.hasher_ wf.size_pos wf.digest_eq
  rwa [← wf.eq_ofLog] at this

theorem rebucket_of_wf {st : StringSet} (wf : WF st) :
    rebucket_loop st.table_size_ st.elements_ (List.replicate st.table_size_ [])
      = some st.table_ := by
  have := rebucket_loop_eq wf.size_pos st.elements_ []
  rw [buildTable_nil] at this
  rw [this, wf.table_eq]
  simp

/-- Claim C17: in every reachable state `expand` returns, and its result is that of the
rebuild from cached digests (`expand_cached`): the table size is doubled, the new table is
the one obtained by appending every log node, in log order, to the chain at index (cached
digest mod the doubled size), and the log is unchanged.  The same holds for the resize
made inside a successful `add`: the table it leaves is the rebuild from the cached digests
of the new log.  The equality rests on each cached digest being the hasher of its
string, since the loop of `expand` computes `hasher_(i->first)`. -/
theorem resize_by_cached_digest (st : StringSet) (hr : Reachable st) :
    expand st = expand_cached st
      ∧ (∃ st1, expand st = some st1 ∧ st1.elements_ = st.elements_
          ∧ st1.nElements_ = st.nElements_ ∧ st1.hasher_ = st.hasher_
          ∧ st1.table_size_ = st.table_size_ * EXPANSION_COEFFICIENT
          ∧ rebucket_loop (st.table_size_ * EXPANSION_COEFFICIENT) st.elements_
              (List.replicate (st.table_size_ * EXPANSION_COEFFICIENT) []) = some st1.table_)
      ∧ ∀ (s : String) (st1 : StringSet), add st s = some (true, st1) →
          st.nElements_ + 1 > st.table_size_ →
          st1.table_size_ = st.table_size_ * EXPANSION_COEFFICIENT
            ∧ (∃ n : Node, st1.elements_ = st.elements_ ++ [n])
            ∧ rebucket_loop (st.table_size_ * EXPANSION_COEFFICIENT) st1.elements_
                (List.replicate (st.table_size_ * EXPANSION_COEFFICIENT) []) = some st1.table_ := by
  have wf := wf_of_reachable hr
  have hpos := wf.size_pos
  have h2 : 0 < st.table_size_ * EXPANSION_COEFFICIENT := by
    simp only [EXPANSION_COEFFICIENT]
    omega
  have hexp := expand_of_wf wf
  refine ⟨expand_eq_expand_cached wf.digest_eq, ⟨_, hexp, rfl, wf.count_eq.symm, rfl, rfl, ?_⟩, ?_⟩
  · have := rebucket_loop_eq h2 st.elements_ []
    rw [buildTable_nil] at this
    simpa [ofLog, EXPANSION_COEFFICIENT] using this
  · intro s st1 h hgt
    have hst1 := (add_true_absent wf h).2
    have wf1 := wf_add wf h
    have hts : st1.table_size_ = st.table_size_ * EXPANSION_COEFFICIENT := by
      rw [hst1]
      simp only [ofLog, grow, EXPANSION_COEFFICIENT]
      rw [wf.count_eq] at hgt
      rw [if_pos hgt]
    refine ⟨hts, ⟨newNode st s, by rw [hst1]; rfl⟩, ?_⟩
    rw [← hts]
    exact rebucket_of_wf wf1

/-- Instance of claim C17 on `sampleSet`, where inserting "ccc" resizes the table. -/
theorem resize_by_cached_digest_witness :
    Reachable sampleSet
      ∧ expand sampleSet
          = some (ofLog sampleSet.elements_ 4 lengthHash)
      ∧ expand sampleSet = expand_cached sampleSet
      ∧ (∃ st1, expand sampleSet = some st1 ∧ st1.elements_ = sampleSet.elements_
          ∧ st1.nElements_ = sampleSet.nElements_ ∧ st1.hasher_ = sampleSet.hasher_
          ∧ st1.table_size_ = sampleSet.table_size_ * EXPANSION_COEFFICIENT
          ∧ rebucket_loop (sampleSet.table_size_ * EXPANSION_COEFFICIENT) sampleSet.elements_
              (List.replicate (sampleSet.table_size_ * EXPANSION_COEFFICIENT) [])
              = some st1.table_)
      ∧ ∀ (s : String) (st1 : StringSet), add sampleSet s = some (true, st1) →
          sampleSet.nElements_ + 1 > sampleSet.table_size_ →
          st1.table_size_ = sampleSet.table_size_ * EXPANSION_COEFFICIENT
            ∧ (∃ n : Node, st1.elements_ = sampleSet.elements_ ++ [n])
            ∧ rebucket_loop (sampleSet.table_size_ * EXPANSION_COEFFICIENT) st1.elements_
                (List.replicate (sampleSet.table_size_ * EXPANSION_COEFFICIENT) [])
                = some st1.table_ :=
  ⟨sampleSet_reachable, rfl, resize_by_cached_digest sampleSet sampleSet_reachable⟩

/-! ## Totality -/

/-- Claim C18: in every reachable state the table size is a power of two, at least 1 and
equal to the length of the bucket array; hence for every string, the empty one included,
the bucket index is inside the bucket array and `find` (both overloads), `contains`,
`add`, `remove` and `expand` return a result: no modulo by zero, no index outside the
table, no dangling iterator. -/
theorem operations_total (st : StringSet) (s : String) (hr : Reachable st) :
    (∃ k, st.table_size_ = 2 ^ k) ∧ 1 ≤ st.table_size_
      ∧ st.table_.length = st.table_size_
      ∧ st.hasher_ s % st.table_size_ < st.table_.length
      ∧ (∃ it, find st s = some it) ∧ (∃ it, find_const st s = some it)
      ∧ (∃ b, contains st s = some b)
      ∧ (∃ b st1, add st s = some (b, st1))
      ∧ (∃ b st1, remove st s = some (b, st1))
      ∧ (∃ st1, expand st = some st1)
      ∧ ∀ n ∈ st.elements_,
          st.hasher_ n.first % (st.table_size_ * EXPANSION_COEFFICIENT)
            < st.table_size_ * EXPANSION_COEFFICIENT := by
  have wf := wf_of_reachable hr
  have hpos := wf.size_pos
  have hlen : st.table_.length = st.table_size_ := by rw [wf.table_eq, length_buildTable]
  have hexp := expand_of_wf wf
  refine ⟨wf.size_pow, hpos, hlen, by rw [hlen]; exact Nat.mod_lt _ hpos, ⟨_, find_eq wf s⟩,
    ⟨_, by rw [find_const_eq_find, find_eq wf]⟩, ⟨_, contains_eq wf s⟩, ?_, ?_, ⟨_, hexp⟩, ?_⟩
  · rcases absent_or_present st s with ha | ⟨a, x, c, he, hx⟩
    · exact ⟨true, _, add_of_absent wf ha⟩
    · exact ⟨false, st, add_of_present wf (by rw [he]; simp : x ∈ st.elements_) hx⟩
  · rcases absent_or_present st s with ha | ⟨a, x, c, he, hx⟩
    · exact ⟨false, st, remove_of_absent wf ha⟩
    · exact ⟨true, _, remove_of_split wf he hx⟩
  · intro n _
    apply Nat.mod_lt
    simp only [EXPANSION_COEFFICIENT]
    omega

/-- Instance of claim C18 on `sampleSet` with the empty string. -/
theorem operations_total_witness :
    Reachable sampleSet
      ∧ (∃ k, sampleSet.table_size_ = 2 ^ k) ∧ 1 ≤ sampleSet.table_size_
      ∧ sampleSet.table_.length = sampleSet.table_size_
      ∧ sampleSet.hasher_ "" % sampleSet.table_size_ < sampleSet.table_.length
      ∧ (∃ it, find sampleSet "" = some it) ∧ (∃ it, find_const sampleSet "" = some it)
      ∧ (∃ b, contains sampleSet "" = some b)
      ∧ (∃ b st1, add sampleSet "" = some (b, st1))
      ∧ (∃ b st1, remove sampleSet "" = some (b, st1))
      ∧ (∃ st1, expand sampleSet = some st1)
      ∧ ∀ n ∈ sampleSet.elements_,
          sampleSet.hasher_ n.first % (sampleSet.table_size_ * EXPANSION_COEFFICIENT)
            < sampleSet.table_size_ * EXPANSION_COEFFICIENT :=
  ⟨sampleSet_reachable, operations_total sampleSet "" sampleSet_reachable⟩

/-! ## The resize applies the hasher again -/

/-- The loop of `expand` places a node by the hasher of its string, not by its cached
digest: on `staleSet`, whose node caches 0 for a string of digest 1, `expand` puts the
node in chain 1 while the rebuild from cached digests puts it in chain 0. -/
theorem expand_applies_hasher :
    (expand staleSet).map (fun st => st.table_) = some [[], [0]]
      ∧ (expand_cached staleSet).map (fun st => st.table_) = some [[0], []] :=
  ⟨rfl, rfl⟩

end StringSet
